import Mathlib

/-!
Verification of the schema-reconciliation and ingestion pipeline
(`load_volza.py`) of the Tiger-X Volza Dashboard repository.

The Python code is shallowly embedded: strings are `String`/`List Char`,
Python dicts are association lists with insert-overwrite semantics
(`dinsert`/`dlookup`), machine floats that only ever carry small rationals
(similarity ratios, thresholds) are modelled as exact `ℚ`/`Nat`
cross-multiplication comparisons (for the denominators that actually occur,
IEEE-754 double comparison agrees with the exact rational comparison), and
`re`-based character classes (`\w`, `\s`, `str.lower`) are modelled over the
ASCII fragment.
-/

/-- The six ASCII whitespace characters stripped by Python's `str.strip()`
and matched by the regex class `\s`. -/
def pyIsSpace (c : Char) : Bool :=
  c = ' ' || c = '\t' || c = '\n' || c = '\r' || c = '\x0b' || c = '\x0c'

/-- The regex class `\w` (ASCII fragment): letters, digits and underscore. -/
def pyIsWordChar (c : Char) : Bool :=
  c.isAlpha || c.isDigit || c = '_'

/-- `str.lower()` on the ASCII fragment. -/
def pyToLower (c : Char) : Char :=
  if 'A' ≤ c ∧ c ≤ 'Z' then Char.ofNat (c.toNat + 32) else c

/-- Drop the trailing run of characters satisfying `p`. -/
def dropTrailing (p : Char → Bool) (l : List Char) : List Char :=
  ((l.reverse).dropWhile p).reverse

/-- Python `str.strip()` on a character list. -/
def pyStripL (l : List Char) : List Char :=
  dropTrailing pyIsSpace (l.dropWhile pyIsSpace)

/-- Python `str.strip()`. -/
def pyStrip (s : String) : String :=
  String.mk (pyStripL s.data)

/-- Python `str.strip("_")` on a character list. -/
def pyStripUnderscoresL (l : List Char) : List Char :=
  dropTrailing (fun c => c = '_') (l.dropWhile (fun c => c = '_'))

/-- The ten characters that `sanitize_column_name` replaces by `"_"` one by
one before the regex passes: `$ % . ? ( ) [ ] { }`. -/
def pySpecials : List Char :=
  ['$', '%', '.', '?', '(', ')', '[', ']', '\x7b', '\x7d']

/-- `for ch in [...]: s = s.replace(ch, "_")` — each special character
becomes an underscore. -/
def subSpecialsL (l : List Char) : List Char :=
  l.map (fun c => if c ∈ pySpecials then '_' else c)

/-- `re.sub(r"[^\w\s]", "_", s)` — any remaining character that is neither a
word character nor whitespace becomes an underscore. -/
def subNonWordL (l : List Char) : List Char :=
  l.map (fun c => if pyIsWordChar c || pyIsSpace c then c else '_')

/-- `re.sub(p+, r, s)` for a character class `p`: each maximal run of
`p`-characters becomes the single character `r`.  The flag records whether
the previous character was part of a run. -/
def collapseRuns (p : Char → Bool) (r : Char) : List Char → Bool → List Char
  | [], _ => []
  | c :: cs, inRun =>
    if p c then
      if inRun then collapseRuns p r cs true
      else r :: collapseRuns p r cs true
    else c :: collapseRuns p r cs false

/-- `re.sub(r"\s+", "_", s)` — each maximal whitespace run becomes a single
underscore. -/
def subSpaceRunsL (l : List Char) : List Char :=
  collapseRuns pyIsSpace '_' l false

/-- `re.sub(r"_+", "_", s)` — each maximal underscore run becomes a single
underscore. -/
def subUnderscoreRunsL (l : List Char) : List Char :=
  collapseRuns (fun c => c = '_') '_' l false

/-- `re.sub(r"[^\w\s]", " ", s)` (used by `normalize_for_matching`) — any
character that is neither a word character nor whitespace becomes a space. -/
def subNonWordSpaceL (l : List Char) : List Char :=
  l.map (fun c => if pyIsWordChar c || pyIsSpace c then c else ' ')

/-- `re.sub(r"\s+", " ", s)` — each maximal whitespace run becomes a single
space. -/
def collapseSpacesL (l : List Char) : List Char :=
  collapseRuns pyIsSpace ' ' l false

/-- Core of `sanitize_column_name` on a non-empty character list: the strip,
the special-character replacement, the two regex substitutions, the
underscore collapse/strip, the lowercasing, and the leading-digit guard. -/
def sanitizeL (raw : List Char) : List Char :=
  let s := pyStripL raw
  let s := subSpecialsL s
  let s := subNonWordL s
  let s := subSpaceRunsL s
  let s := subUnderscoreRunsL s
  let s := pyStripUnderscoresL s
  let s := s.map pyToLower
  match s with
  | [] => "unnamed".data
  | c :: _ => if c.isDigit then 'c' :: 'o' :: 'l' :: '_' :: s else s

/-- `sanitize_column_name` from `load_volza.py` (lines 79–95).  The
`pd.isna(raw)` branch collapses with `not raw` to the empty-string case,
because the embedded input is always a string. -/
def sanitize_column_name (raw : String) : String :=
  match raw.data with
  | [] => "unnamed"
  | _ => String.mk (sanitizeL raw.data)

/-- `normalize_for_matching` from `load_volza.py` (lines 97–102):
strip + lowercase, non-word-non-space characters to spaces, whitespace runs
to single spaces, strip. -/
def normalize_for_matching (col : String) : String :=
  let s := (pyStripL col.data).map pyToLower
  let s := subNonWordSpaceL s
  let s := collapseSpacesL s
  String.mk (pyStripL s)

/-- One step of `dedupe_columns`: `seen` maps a name to the counter stored by
the Python dict (0 on first sight, incremented per repeat). -/
def dedupeAux (seen : List (String × Nat)) : List String → List String
  | [] => []
  | c :: cs =>
    match seen.lookup c with
    | some n =>
      (c ++ "_" ++ Nat.repr (n + 1)) ::
        dedupeAux ((c, n + 1) :: seen.eraseP (fun p => p.1 = c)) cs
    | none => c :: dedupeAux ((c, 0) :: seen) cs

/-- `dedupe_columns` from `load_volza.py` (lines 104–115). -/
def dedupe_columns (cols : List String) : List String :=
  dedupeAux [] cols

/-- Python dict insertion `d[k] = v`: overwrite in place if the key exists
(keeping its position, as Python dicts keep first-insertion order),
otherwise append at the end. -/
def dinsert (d : List (String × String)) (k v : String) : List (String × String) :=
  match d with
  | [] => [(k, v)]
  | (k1, v1) :: rest =>
    if k1 = k then (k, v) :: rest else (k1, v1) :: dinsert rest k v

/-- Python dict lookup `d.get(k)`. -/
def dlookup (d : List (String × String)) (k : String) : Option String :=
  match d with
  | [] => none
  | (k1, v1) :: rest => if k1 = k then some v1 else dlookup rest k

/-- `UNIFIED_SCHEMA` from `load_volza.py` (lines 37–55). -/
def UNIFIED_SCHEMA : List String :=
  ["Date", "HS Code", "Product Description", "HS Description", "HS2", "HS4", "Month",
   "Shipper Name", "Consignee Name", "Notify Party",
   "Shipper Address1", "Shipper Address2", "Shipper City", "Shipper State", "Shipper Pincode",
   "Shipper Phone", "Shipper Email", "Shipper Contact Person",
   "Consignee Address 1", "Consignee Address 2", "Consignee City", "Consignee State",
   "Consignee Pincode", "Consignee Phone", "Consignee E-mail", "Contact Person",
   "Port of Origin", "Port of Destination", "Country of Origin", "Country of Destination",
   "Shipment Mode",
   "Standard Qty", "Standard Unit", "QTY", "Unit",
   "Standard Unit Rate $", "Estimated F.O.B Value $", "Estimated CIF Value $",
   "Estimated Unit Rate $", "Unit Rate $", "Value in FC", "Rate In FC", "Rate Currency",
   "Landed Value $", "Tax $", "Tax %", "Freight Value $", "Insurance Value $",
   "BL TYP", "Terms", "Gross Weight", "Gross Weight Unit",
   "Raw Shipper Name", "Raw Consignee Name", "Raw Shipper Address1", "Raw Shipper Address2",
   "Raw Shipper City", "Raw Shipper State", "Raw Consignee Add1", "Raw Consignee Add2",
   "Raw Consignee City", "Raw Consignee State", "Raw Consignee Pincode",
   "Raw Consignee Phone", "Raw Consignee E-mail", "Raw Consignee Country",
   "Is Unique", "IsUnique", "Record Id", "IEC"]

/-- `COLUMN_MAPPINGS` from `load_volza.py` (lines 58–77), the curated alias
table from normalized header spellings to unified fields. -/
def COLUMN_MAPPINGS : List (String × String) :=
  [("shipper name", "Shipper Name"),
   ("shipper_name", "Shipper Name"),
   ("consignee name", "Consignee Name"),
   ("consignee_name", "Consignee Name"),
   ("hs code", "HS Code"),
   ("product description", "Product Description"),
   ("country of origin", "Country of Origin"),
   ("country of destination", "Country of Destination"),
   ("port of origin", "Port of Origin"),
   ("port of destination", "Port of Destination"),
   ("shipment mode", "Shipment Mode"),
   ("date", "Date"),
   ("month", "Month"),
   ("qty", "QTY"),
   ("unit", "Unit"),
   ("value", "Estimated F.O.B Value $"),
   ("fob value", "Estimated F.O.B Value $"),
   ("cif value", "Estimated CIF Value $")]

/-- `schema_norm = \x7bnormalize_for_matching(u): u for u in UNIFIED_SCHEMA\x7d`
(`build_mapping`, line 176): later catalog entries overwrite earlier ones on
normalized-key collision ("Tax $" and "Tax %" both normalize to "tax"). -/
def schema_norm : List (String × String) :=
  UNIFIED_SCHEMA.foldl (fun d u => dinsert d (normalize_for_matching u) u) []

/-- `FUZZY_MATCH_CUTOFF = 0.80` (`load_volza.py`, line 23).  The float literal
is modelled by the exact rational `4/5`: every ratio that occurs is a
rational with small numerator and denominator, and for such values the
IEEE-754 comparison against the double nearest to `0.80` coincides with the
exact comparison against `4/5`. -/
def FUZZY_MATCH_CUTOFF : ℚ := mkRat 4 5

/-- Sparse lookup in one row of the `find_longest_match` dynamic programme
(`j2len.get(j, 0)`). -/
def rlookup (row : List (Nat × Nat)) (j : Nat) : Nat :=
  match row with
  | [] => 0
  | (j1, k) :: rest => if j1 = j then k else rlookup rest j

/-- Inner loop of `difflib.SequenceMatcher.find_longest_match` for one `i`:
walk every position `j` of `b[blo:bhi]` holding `a[i]` (in Python this is the
precomputed ascending list `b2j[a[i]]` filtered to the window), store the run
length `k = j2len.get(j-1, 0) + 1`, and update the best block on `k >
bestsize`.  `b2j` has no junk keys; the corpus strings are far below the 200
character autojunk threshold, so junk is empty. -/
def flmRow (ai : Char) (b : List Char) (i blo bhi : Nat)
    (prev : List (Nat × Nat)) (best : Nat × Nat × Nat) :
    List (Nat × Nat) × (Nat × Nat × Nat) :=
  (List.range' blo (bhi - blo)).foldl
    (fun acc j =>
      if b.get? j = some ai then
        let k := (if j = 0 then 0 else rlookup acc.1.1 (j - 1)) + 1
        let best1 := if acc.2.2.2 < k then (i + 1 - k, j + 1 - k, k) else acc.2
        ((acc.1.1, (j, k) :: acc.1.2), best1)
      else acc)
    ((prev, []), best)
  |>.map (fun rows => rows.2) id

/-- Left extension loop of `find_longest_match` (`while besti > alo and
bestj > blo and a[besti-1] == b[bestj-1]`); the junk variant is a no-op
because the junk set is empty. -/
def flmExtendLeft (a b : List Char) (alo blo : Nat) :
    Nat → Nat × Nat × Nat → Nat × Nat × Nat
  | 0, st => st
  | fuel + 1, (besti, bestj, bestsize) =>
    if alo < besti ∧ blo < bestj ∧ (a.get? (besti - 1)).isSome ∧
        a.get? (besti - 1) = b.get? (bestj - 1) then
      flmExtendLeft a b alo blo fuel (besti - 1, bestj - 1, bestsize + 1)
    else (besti, bestj, bestsize)

/-- Right extension loop of `find_longest_match` (`while besti+bestsize < ahi
and bestj+bestsize < bhi and a[besti+bestsize] == b[bestj+bestsize]`). -/
def flmExtendRight (a b : List Char) (ahi bhi : Nat) :
    Nat → Nat × Nat × Nat → Nat × Nat × Nat
  | 0, st => st
  | fuel + 1, (besti, bestj, bestsize) =>
    if besti + bestsize < ahi ∧ bestj + bestsize < bhi ∧
        (a.get? (besti + bestsize)).isSome ∧
        a.get? (besti + bestsize) = b.get? (bestj + bestsize) then
      flmExtendRight a b ahi bhi fuel (besti, bestj, bestsize + 1)
    else (besti, bestj, bestsize)

/-- `difflib.SequenceMatcher.find_longest_match` on the window
`a[alo:ahi] × b[blo:bhi]`, with empty junk set (no explicit junk predicate
and strings below the autojunk threshold). -/
def find_longest_match (a b : List Char) (alo ahi blo bhi : Nat) :
    Nat × Nat × Nat :=
  let dp := (List.range' alo (ahi - alo)).foldl
    (fun (acc : List (Nat × Nat) × (Nat × Nat × Nat)) i =>
      match a.get? i with
      | some ai => flmRow ai b i blo bhi acc.1 acc.2
      | none => ([], acc.2))
    ([], (alo, blo, 0))
  let st := flmExtendLeft a b alo blo (dp.2.1 - alo) dp.2
  flmExtendRight a b ahi bhi (ahi - (st.1 + st.2.2)) st

/-- Total size of the matching blocks of
`difflib.SequenceMatcher.get_matching_blocks`: recursive splitting around
the longest match.  The queue order, the final sort and the
adjacent-block collapse do not change the total size, which is all
`ratio()` consumes.  Fuel bounds the recursion depth; the top-level call
supplies more fuel than the depth ever reaches. -/
def matchedTotalAux (a b : List Char) :
    Nat → Nat → Nat → Nat → Nat → Nat
  | 0, _, _, _, _ => 0
  | fuel + 1, alo, ahi, blo, bhi =>
    let m := find_longest_match a b alo ahi blo bhi
    if m.2.2 = 0 then 0
    else
      m.2.2 + matchedTotalAux a b fuel alo m.1 blo m.2.1 +
        matchedTotalAux a b fuel (m.1 + m.2.2) ahi (m.2.1 + m.2.2) bhi

/-- `M`, the total number of matched elements between `a` and `b`. -/
def matchedTotal (a b : List Char) : Nat :=
  matchedTotalAux a b (a.length + b.length + 1) 0 a.length 0 b.length

/-- `difflib.SequenceMatcher.ratio()`: `2.0 * M / T`, where `T` is the total
length of the two sequences (`1.0` when both are empty). -/
def seqRatio (a b : String) : ℚ :=
  let T := a.length + b.length
  if T = 0 then mkRat 1 1 else mkRat (2 * matchedTotal a.data b.data) T

/-- Python string comparison `s < t` (lexicographic on code points). -/
def pyStrLtL : List Char → List Char → Bool
  | [], [] => false
  | [], _ :: _ => true
  | _ :: _, [] => false
  | c :: cs, d :: ds =>
    if c.toNat < d.toNat then true
    else if d.toNat < c.toNat then false
    else pyStrLtL cs ds

/-- Python string comparison `s < t`. -/
def pyStrLt (s t : String) : Bool := pyStrLtL s.data t.data

/-- `difflib.get_close_matches(word, possibilities, n=1, cutoff)`.
difflib keeps every possibility whose ratio is at least the cutoff (the
`real_quick_ratio`/`quick_ratio` prefilters are upper bounds of `ratio`, so
they reject nothing that `ratio` accepts) and returns the largest scored
pair `(ratio, x)` via `heapq.nlargest(1)` — ties on the ratio are broken
towards the lexicographically larger string, the second tuple component.
`gcmStep` folds one possibility into the best scored pair so far. -/
def gcmStep (word : String) (cutoff : ℚ) (best : Option (ℚ × String))
    (x : String) : Option (ℚ × String) :=
  let r := seqRatio x word
  if cutoff ≤ r then
    match best with
    | none => some (r, x)
    | some (br, bx) =>
      if br < r ∨ (br = r ∧ pyStrLt bx x) then some (r, x) else best
  else best

def get_close_matches_1 (word : String) (poss : List String) (cutoff : ℚ) :
    Option String :=
  (poss.foldl (gcmStep word cutoff) none).map (fun p => p.2)

/-- The body of the `for raw in all_hdrs` loop of `build_mapping`
(`load_volza.py`, lines 179–202), applied to `raw_str = str(raw).strip()`:
alias table, then normalized exact schema match, then fuzzy match over the
normalized schema keys, else the raw header itself. -/
def resolveHeader (raw_str : String) : String :=
  let normalized := normalize_for_matching raw_str
  match dlookup COLUMN_MAPPINGS normalized with
  | some t => t
  | none =>
    match dlookup schema_norm normalized with
    | some u => u
    | none =>
      match get_close_matches_1 normalized (schema_norm.map Prod.fst)
          FUZZY_MATCH_CUTOFF with
      | some m =>
        match dlookup schema_norm m with
        | some u => u
        | none => raw_str
      | none => raw_str

/-- `build_mapping` from `load_volza.py` (lines 174–205): the corpus header
set arrives as a list in some enumeration order; each header is stripped,
resolved, and stored under its stripped spelling. -/
def build_mapping (all_hdrs : List String) : List (String × String) :=
  all_hdrs.foldl
    (fun m raw => dinsert m (pyStrip raw) (resolveHeader (pyStrip raw))) []

/-- A pandas DataFrame, reduced to what the pipeline manipulates: a column
label list and rows of optional (nullable) string cells, positionally
aligned with the labels. -/
structure PFrame where
  cols : List String
  rows : List (List (Option String))

/-- `df[c]` for a row: the cell at the first position labelled `c`
(`none` when the label is absent, matching a missing key). -/
def colValue (cols : List String) (row : List (Option String)) (c : String) :
    Option String :=
  (row.get? (cols.indexOf c)).getD none

/-- The `for final_col in final_cols: if final_col not in df.columns:
df[final_col] = pd.NA` loop of `process_file`: append each missing target
label with an all-null column. -/
def addMissingCols (final_cols cols : List String)
    (rows : List (List (Option String))) :
    List String × List (List (Option String)) :=
  final_cols.foldl
    (fun acc c =>
      if c ∈ acc.1 then acc
      else (acc.1 ++ [c], acc.2.map (fun r => r ++ [none])))
    (cols, rows)

/-- `df[name] = val`: overwrite every column labelled `name` (pandas sets all
duplicate labels), or append a new constant column when the label is
absent. -/
def setColumn (name val : String) (cols : List String)
    (rows : List (List (Option String))) :
    List String × List (List (Option String)) :=
  if name ∈ cols then
    (cols, rows.map (fun r =>
      (cols.zip r).map (fun p => if p.1 = name then some val else p.2)))
  else (cols ++ [name], rows.map (fun r => r ++ [some val]))

/-- `astype(str)` on one nullable cell: a missing value prints as `"<NA>"`. -/
def cellStr : Option String → String
  | none => "<NA>"
  | some s => s

/-- `process_file` from `load_volza.py` (lines 207–256), after the Excel read:
`rawCols`/`rows` are the sheet's header row and data read as strings,
`mapping` the corpus-wide header mapping, `final_cols` the unified column
list from `main`.  An empty frame returns `None`; otherwise the headers are
mapped, sanitized and deduplicated, missing target columns are added as
nulls, the frame is cut down to the target columns, leaked header rows are
dropped, and the three provenance columns are filled in. -/
def process_file (rawCols : List String) (mapping : List (String × String))
    (final_cols : List String) (rows : List (List (Option String)))
    (sourceFile sourceFolder timestamp : String) : Option PFrame :=
  if rows.isEmpty || rawCols.isEmpty then none
  else
    let new_cols := dedupe_columns (rawCols.map (fun col =>
      let colStr := pyStrip col
      sanitize_column_name ((dlookup mapping colStr).getD colStr)))
    let step1 := addMissingCols final_cols new_cols rows
    let available := final_cols.filter (fun c => c ∈ step1.1)
    let rows2 := step1.2.map (fun r => available.map (colValue step1.1 r))
    let rows3 :=
      match final_cols with
      | [] => rows2
      | first :: _ =>
        if rows2.isEmpty then rows2
        else if first ∈ available then
          rows2.filter (fun r =>
            String.mk (((cellStr (colValue available r first)).data.dropWhile
                pyIsSpace |> dropTrailing pyIsSpace).map pyToLower)
              ≠ normalize_for_matching first)
        else rows2
    let step2 := setColumn "source_file" sourceFile available rows3
    let step3 := setColumn "source_folder" sourceFolder step2.1 step2.2
    let step4 := setColumn "processed_timestamp" timestamp step3.1 step3.2
    some ⟨step4.1, step4.2⟩

/-- Consume `(('_')? digit)*` after an initial digit: Python numeric literals
allow single underscores strictly between digits. -/
def munchDigits : List Char → List Char
  | '_' :: c :: cs => if c.isDigit then munchDigits cs else '_' :: c :: cs
  | c :: cs => if c.isDigit then munchDigits cs else c :: cs
  | [] => []

/-- Parse a mandatory digit run (with embedded underscores); return the rest
of the input on success. -/
def parseDigitRun : List Char → Option (List Char)
  | c :: cs => if c.isDigit then some (munchDigits cs) else none
  | [] => none

/-- Parse the significand of a Python float literal:
`digits [ "." [digits] ]` or `"." digits`. -/
def parseSignificand (l : List Char) : Option (List Char) :=
  match parseDigitRun l with
  | some rest =>
    match rest with
    | '.' :: rest2 => some ((parseDigitRun rest2).getD rest2)
    | _ => some rest
  | none =>
    match l with
    | '.' :: rest => parseDigitRun rest
    | _ => none

/-- Parse a mandatory exponent `("e"|"E") [sign] digits`. -/
def parseExponent (l : List Char) : Option (List Char) :=
  match l with
  | c :: rest =>
    if c = 'e' || c = 'E' then
      match rest with
      | s :: r => if s = '+' || s = '-' then parseDigitRun r else parseDigitRun rest
      | [] => none
    else none
  | [] => none

/-- Whether Python's `float(s)` succeeds: optional surrounding whitespace and
sign, then `inf`/`infinity`/`nan` (case-insensitive) or a decimal literal
with optional exponent. -/
def pyFloatAccepts (s : String) : Bool :=
  let l := pyStripL s.data
  let l := match l with
    | c :: rest => if c = '+' || c = '-' then rest else c :: rest
    | [] => []
  let low := l.map pyToLower
  if low = "inf".data || low = "infinity".data || low = "nan".data then true
  else
    match parseSignificand l with
    | some [] => true
    | some rest =>
      match parseExponent rest with
      | some [] => true
      | _ => false
    | none => false

/-- `val.replace(',', '')` — strip thousands separators before the numeric
parse. -/
def removeCommas (s : String) : String :=
  String.mk (s.data.filter (fun c => c ≠ ','))

/-- The per-column body of `create_table` (`load_volza.py`, lines 262–298):
drop nulls; an empty sample is TEXT; count numeric parses over the first 100
values and compare the success ratio against `0.8` (`cnt/denom > 0.8` is the
exact `5*cnt > 4*denom`, since both sides are at most 100 the float
comparison agrees); otherwise size a VARCHAR from the maximum string length
(`int(max_length * 1.2)` equals `6*L/5` rounded down at these magnitudes)
or fall back to TEXT. -/
def create_table_column_type (vals : List (Option String)) : String :=
  let series := vals.filterMap id
  if series.length = 0 then "TEXT"
  else
    let sample := series.take 100
    let numeric_count :=
      (sample.filter (fun v => pyFloatAccepts (removeCommas v))).length
    if 4 * min series.length 100 < 5 * numeric_count then "DOUBLE"
    else
      let max_length := (series.map String.length).foldl max 0
      if max_length = 0 then "TEXT"
      else if max_length < 255 then
        "VARCHAR(" ++ Nat.repr (min 255 (max 50 (6 * max_length / 5))) ++ ")"
      else "TEXT"

/-- `BATCH_SIZE = 25_000` (`load_volza.py`, line 22). -/
def BATCH_SIZE : Nat := 25000

/-- `MAX_RETRIES = 3` (`load_volza.py`, line 25). -/
def MAX_RETRIES : Nat := 3

/-- `batches = math.ceil(total_rows / BATCH_SIZE)`. -/
def numBatches (total_rows : Nat) : Nat :=
  (total_rows + BATCH_SIZE - 1) / BATCH_SIZE

/-- `start_idx = batch_num * BATCH_SIZE`. -/
def batchStart (b : Nat) : Nat := b * BATCH_SIZE

/-- `end_idx = min(start_idx + BATCH_SIZE, total_rows)`. -/
def batchStop (total_rows b : Nat) : Nat :=
  min (batchStart b + BATCH_SIZE) total_rows

/-- The retry loop of `upload_to_mysql` for one batch: `succ b a` is the
outcome the destination would give attempt `a` (0-based) on batch `b`;
the loop stops at the first success or after `MAX_RETRIES` attempts. -/
def attemptBatch (succ : Nat → Nat → Bool) (b : Nat) :
    Nat → Nat → Bool
  | 0, _ => false
  | fuel + 1, attempt =>
    if succ b attempt then true else attemptBatch succ b fuel (attempt + 1)

/-- Whether a batch is eventually uploaded within `MAX_RETRIES` attempts. -/
def batchUploaded (succ : Nat → Nat → Bool) (b : Nat) : Bool :=
  attemptBatch succ b MAX_RETRIES 0

/-- `upload_to_mysql` from `load_volza.py` (lines 319–365), reduced to the
batching/retry accounting: the returned value is `successful_uploads`, the
number of rows of batches that were eventually uploaded; a permanently
failed batch is logged and skipped, and the loop continues. -/
def upload_to_mysql (total_rows : Nat) (succ : Nat → Nat → Bool) : Nat :=
  (List.range (numBatches total_rows)).foldl
    (fun acc b =>
      if batchUploaded succ b then acc + (batchStop total_rows b - batchStart b)
      else acc)
    0

/-- The rows of batches that permanently failed. -/
def failedRows (total_rows : Nat) (succ : Nat → Nat → Bool) : Nat :=
  (List.range (numBatches total_rows)).foldl
    (fun acc b =>
      if batchUploaded succ b then acc
      else acc + (batchStop total_rows b - batchStart b))
    0

/-- `final_cols` built in `main` (`load_volza.py`, lines 428–429): the
sanitized catalog plus the three provenance columns. -/
def final_cols : List String :=
  UNIFIED_SCHEMA.map sanitize_column_name ++
    ["source_file", "source_folder", "processed_timestamp"]

/-! ## Lemmas and claim theorems -/

/-- Removing the (first) entry of a different key does not change a lookup. -/
theorem lookup_eraseP_ne {l : List (String × Nat)} {d c : String} (h : d ≠ c) :
    (l.eraseP (fun p => p.1 = c)).lookup d = l.lookup d := by
  induction l with
  | nil => rfl
  | cons p rest ih =>
    by_cases hp : p.1 = c
    · rw [List.eraseP_cons_of_pos (by simpa using hp)]
      have hpd : (d == p.1) = false :=
        beq_eq_false_iff_ne.mpr (by rw [hp]; exact h)
      simp [List.lookup, hpd]
    · rw [List.eraseP_cons_of_neg (by simpa using hp)]
      simp only [List.lookup]
      cases hdp : (d == p.1)
      · simp only [ih]
      · rfl

/-- The name the Python loop emits for the `k`-th occurrence (0-based) of a
column name: the first occurrence keeps the bare name, repeat `k` gets the
suffix `_k`. -/
def renamed (c : String) (k : Nat) : String :=
  if k = 0 then c else c ++ "_" ++ Nat.repr k

/-- Reference recursion for `dedupe_columns`: rename each element by the
number of its earlier occurrences (`pre` is the already-consumed prefix). -/
def dedupeSpec (pre : List String) : List String → List String
  | [] => []
  | c :: cs => renamed c (pre.count c) :: dedupeSpec (pre ++ [c]) cs

/-- The `seen` dictionary of `dedupe_columns` stores exactly
(occurrences so far) − 1 for each already-seen name. -/
def DedupeInv (seen : List (String × Nat)) (pre : List String) : Prop :=
  ∀ c : String,
    seen.lookup c = if pre.count c = 0 then none else some (pre.count c - 1)

theorem dedupeAux_eq_spec :
    ∀ (cs : List String) (seen : List (String × Nat)) (pre : List String),
      DedupeInv seen pre → dedupeAux seen cs = dedupeSpec pre cs := by
  intro cs
  induction cs with
  | nil => intro seen pre _; rfl
  | cons c cs ih =>
    intro seen pre hinv
    by_cases h0 : pre.count c = 0
    · have hc2 : List.lookup c seen = none := by rw [hinv c]; simp [h0]
      have hren : renamed c (pre.count c) = c := by simp [renamed, h0]
      simp only [dedupeAux, hc2, dedupeSpec]
      rw [hren]
      refine congrArg (List.cons c) (ih _ _ ?_)
      intro d
      by_cases hd : d = c
      · subst hd
        have hl : ((d, 0) :: seen).lookup d = some 0 := by
          simp [List.lookup]
        rw [hl]
        simp [List.count_append, h0]
      · have hl : ((c, 0) :: seen).lookup d = seen.lookup d := by
          have hf : (d == c) = false := beq_eq_false_iff_ne.mpr hd
          simp [List.lookup, hf]
        rw [hl, hinv d]
        have hcnt : (pre ++ [c]).count d = pre.count d := by
          have : List.count d [c] = 0 := by
            simp [List.count_singleton]
            exact fun e => (hd e.symm).elim
          simp [List.count_append, this]
        rw [hcnt]
    · obtain ⟨n, hn⟩ : ∃ n, pre.count c = n + 1 :=
        ⟨pre.count c - 1, by omega⟩
      have hc2 : List.lookup c seen = some n := by rw [hinv c]; simp [hn]
      have hren : renamed c (pre.count c) = c ++ "_" ++ Nat.repr (n + 1) := by
        simp [renamed, hn]
      simp only [dedupeAux, hc2, dedupeSpec]
      rw [hren]
      refine congrArg (List.cons _) (ih _ _ ?_)
      intro d
      by_cases hd : d = c
      · subst hd
        have hl : ((d, n + 1) :: seen.eraseP (fun p => p.1 = d)).lookup d
            = some (n + 1) := by simp [List.lookup]
        rw [hl]
        simp [List.count_append, hn]
      · have hl : ((c, n + 1) :: seen.eraseP (fun p => p.1 = c)).lookup d
            = (seen.eraseP (fun p => p.1 = c)).lookup d := by
          have hf : (d == c) = false := beq_eq_false_iff_ne.mpr hd
          simp [List.lookup, hf]
        rw [hl, lookup_eraseP_ne hd, hinv d]
        have hcnt : (pre ++ [c]).count d = pre.count d := by
          have : List.count d [c] = 0 := by
            simp [List.count_singleton]
            exact fun e => (hd e.symm).elim
          simp [List.count_append, this]
        rw [hcnt]

theorem dedupeSpec_length : ∀ (cs pre : List String),
    (dedupeSpec pre cs).length = cs.length := by
  intro cs
  induction cs with
  | nil => intro pre; rfl
  | cons c cs ih => intro pre; simp [dedupeSpec, ih]

theorem dedupeSpec_get? : ∀ (cs pre : List String) (i : Nat),
    (dedupeSpec pre cs).get? i =
      (cs.get? i).map (fun c => renamed c ((pre ++ cs.take i).count c)) := by
  intro cs
  induction cs with
  | nil => intro pre i; cases i <;> rfl
  | cons c cs ih =>
    intro pre i
    cases i with
    | zero => simp [dedupeSpec]
    | succ i =>
      simp only [dedupeSpec, List.get?_cons_succ, List.take_succ_cons]
      rw [ih (pre ++ [c]) i]
      simp [List.append_assoc]

theorem dedupe_columns_eq_spec (cols : List String) :
    dedupe_columns cols = dedupeSpec [] cols := by
  apply dedupeAux_eq_spec
  intro c
  simp [List.lookup]

/-- C5 counterexample: on the input `["a", "a_1", "a"]` the output of
`dedupe_columns` is `["a", "a_1", "a_1"]`, whose entries are not pairwise
distinct — the suffix generated for the repeated `"a"` collides with the
input name `"a_1"`. -/
theorem dedupe_columns_not_always_nodup :
    dedupe_columns ["a", "a_1", "a"] = ["a", "a_1", "a_1"] ∧
    ¬ (dedupe_columns ["a", "a_1", "a"]).Nodup := by
  constructor
  · decide
  · decide

/-- C5 (amended): for every input list, `dedupe_columns` returns a list of
the same length in which the first occurrence of each name keeps the bare
name and the `k`-th repeat receives the suffix `_k`, in first-seen order
(in particular `["qty","qty","qty"]` yields `["qty","qty_1","qty_2"]`);
the entries need not be pairwise distinct when an input name coincides
with a generated suffixed name. -/
theorem dedupe_columns_renames_occurrences (cols : List String) :
    (dedupe_columns cols).length = cols.length ∧
    (∀ i : Nat, (dedupe_columns cols).get? i =
      (cols.get? i).map (fun c => renamed c ((cols.take i).count c))) ∧
    dedupe_columns ["qty", "qty", "qty"] = ["qty", "qty_1", "qty_2"] := by
  refine ⟨?_, ?_, by decide⟩
  · rw [dedupe_columns_eq_spec]; exact dedupeSpec_length cols []
  · intro i
    rw [dedupe_columns_eq_spec, dedupeSpec_get?]
    simp

/-- C10: `sanitize_column_name` is not injective on the catalog — the
distinct entries `"Tax $"` and `"Tax %"` both normalize to `"tax"` — so the
final unified column list built in `main` contains duplicate names. -/
theorem sanitize_collides_on_catalog :
    sanitize_column_name "Tax $" = "tax" ∧
    sanitize_column_name "Tax %" = "tax" ∧
    ("Tax $" : String) ≠ "Tax %" ∧
    "Tax $" ∈ UNIFIED_SCHEMA ∧ "Tax %" ∈ UNIFIED_SCHEMA ∧
    ¬ (UNIFIED_SCHEMA.map sanitize_column_name).Nodup ∧
    ¬ final_cols.Nodup := by
  refine ⟨by decide, by decide, by decide, by decide, by decide, ?_, ?_⟩
  · intro h
    have h2 := List.nodup_iff_count_le_one.mp h "tax"
    have h3 : (UNIFIED_SCHEMA.map sanitize_column_name).count "tax" = 2 := by
      decide
    omega
  · intro h
    have h2 := List.nodup_iff_count_le_one.mp h "tax"
    have h3 : final_cols.count "tax" = 2 := by decide
    omega

/-- Dict lookup after dict insertion. -/
theorem dlookup_dinsert (d : List (String × String)) (k v q : String) :
    dlookup (dinsert d k v) q = if k = q then some v else dlookup d q := by
  induction d with
  | nil => simp [dinsert, dlookup]
  | cons p rest ih =>
    obtain ⟨k1, v1⟩ := p
    by_cases hk : k1 = k
    · subst hk
      simp only [dinsert, if_pos rfl, dlookup]
      by_cases hq : k1 = q <;> simp [hq]
    · simp only [dinsert, if_neg hk, dlookup]
      by_cases hq : k1 = q
      · subst hq
        have : ¬ k = k1 := fun e => hk e.symm
        simp [this]
      · simp [hq, ih]

/-- Every entry of an inserted dict is the new pair or an old entry. -/
theorem mem_dinsert (d : List (String × String)) (k v : String)
    (p : String × String) (hp : p ∈ dinsert d k v) : p = (k, v) ∨ p ∈ d := by
  induction d with
  | nil => simpa [dinsert] using hp
  | cons q rest ih =>
    obtain ⟨k1, v1⟩ := q
    by_cases hk : k1 = k
    · subst hk
      simp only [dinsert, if_pos rfl] at hp
      rcases List.mem_cons.mp hp with h | h
      · exact Or.inl h
      · exact Or.inr (List.mem_cons_of_mem _ h)
    · simp only [dinsert, if_neg hk] at hp
      rcases List.mem_cons.mp hp with h | h
      · exact Or.inr (by simp [h])
      · rcases ih h with h2 | h2
        · exact Or.inl h2
        · exact Or.inr (List.mem_cons_of_mem _ h2)

/-- A successful dict lookup produces an entry of the dict. -/
theorem dlookup_mem {d : List (String × String)} {k v : String}
    (h : dlookup d k = some v) : (k, v) ∈ d := by
  induction d with
  | nil => simp [dlookup] at h
  | cons p rest ih =>
    obtain ⟨k1, v1⟩ := p
    by_cases hk : k1 = k
    · subst hk
      simp [dlookup] at h
      subst h
      exact List.mem_cons_self _ _
    · simp only [dlookup, if_neg hk] at h
      exact List.mem_cons_of_mem _ (ih h)

/-- Every value of `schema_norm` is a catalog entry. -/
theorem schema_norm_values :
    ∀ p ∈ schema_norm, p.2 ∈ UNIFIED_SCHEMA := by
  have main : ∀ (l : List String) (d : List (String × String)),
      (∀ u ∈ l, u ∈ UNIFIED_SCHEMA) →
      (∀ p ∈ d, p.2 ∈ UNIFIED_SCHEMA) →
      ∀ p ∈ l.foldl (fun d u => dinsert d (normalize_for_matching u) u) d,
        p.2 ∈ UNIFIED_SCHEMA := by
    intro l
    induction l with
    | nil => intro d _ hd p hp; exact hd p hp
    | cons u l ih =>
      intro d hl hd p hp
      refine ih _ (fun w hw => hl w (List.mem_cons_of_mem _ hw)) ?_ p hp
      intro q hq
      rcases mem_dinsert _ _ _ _ hq with h | h
      · subst h; exact hl u (List.mem_cons_self _ _)
      · exact hd q h
  exact main UNIFIED_SCHEMA [] (fun u hu => hu) (by simp)

/-- The value resolved for any header is either a catalog entry or the
header itself. -/
theorem resolveHeader_range (s : String) :
    resolveHeader s ∈ UNIFIED_SCHEMA ∨ resolveHeader s = s := by
  have hcm : ∀ p ∈ COLUMN_MAPPINGS, p.2 ∈ UNIFIED_SCHEMA := by decide
  unfold resolveHeader
  cases hal : dlookup COLUMN_MAPPINGS (normalize_for_matching s) with
  | some t =>
    simp only [hal]
    exact Or.inl (hcm _ (dlookup_mem hal))
  | none =>
    simp only [hal]
    cases hsc : dlookup schema_norm (normalize_for_matching s) with
    | some u =>
      simp only [hsc]
      exact Or.inl (schema_norm_values _ (dlookup_mem hsc))
    | none =>
      simp only [hsc]
      cases hgc : get_close_matches_1 (normalize_for_matching s)
          (schema_norm.map Prod.fst) FUZZY_MATCH_CUTOFF with
      | some m =>
        simp only [hgc]
        cases hm : dlookup schema_norm m with
        | some u =>
          simp only [hm]
          exact Or.inl (schema_norm_values _ (dlookup_mem hm))
        | none => simp only [hm]; exact Or.inr trivial
      | none => simp only [hgc]; exact Or.inr trivial

/-- Looking up any query in the dict built by the `build_mapping` fold:
present exactly when some processed header strips to the query, and in that
case the stored value is the query's own resolution. -/
theorem build_mapping_fold_lookup (hdrs : List String) (q : String) :
    ∀ m : List (String × String),
      dlookup (hdrs.foldl
        (fun m raw => dinsert m (pyStrip raw) (resolveHeader (pyStrip raw))) m) q
      = if ∃ h ∈ hdrs, pyStrip h = q then some (resolveHeader q)
        else dlookup m q := by
  induction hdrs with
  | nil => intro m; simp
  | cons h t ih =>
    intro m
    simp only [List.foldl_cons]
    rw [ih]
    by_cases hh : pyStrip h = q
    · by_cases ht : ∃ x ∈ t, pyStrip x = q
      · rw [if_pos ht, if_pos ⟨h, List.mem_cons_self _ _, hh⟩]
      · rw [if_neg ht, if_pos ⟨h, List.mem_cons_self _ _, hh⟩,
          dlookup_dinsert, if_pos hh, hh]
    · by_cases ht : ∃ x ∈ t, pyStrip x = q
      · obtain ⟨x, hx, he⟩ := ht
        rw [if_pos ⟨x, hx, he⟩, if_pos ⟨x, List.mem_cons_of_mem _ hx, he⟩]
      · rw [if_neg ht, dlookup_dinsert, if_neg hh]
        rw [if_neg ?_]
        rintro ⟨x, hx, he⟩
        rcases List.mem_cons.mp hx with rfl | hxt
        · exact hh he
        · exact ht ⟨x, hxt, he⟩

/-- The mapping built by `build_mapping`, viewed through lookup: a total
function on the stripped observed headers, with order playing no role. -/
theorem build_mapping_lookup (hdrs : List String) (q : String) :
    dlookup (build_mapping hdrs) q =
      if ∃ h ∈ hdrs, pyStrip h = q then some (resolveHeader q) else none := by
  rw [build_mapping, build_mapping_fold_lookup]
  rfl

/-- C1: `build_mapping` is deterministic in the traversal order — two
enumerations of the same set of raw headers produce mappings that agree, as
lookup functions, on every query; each entry depends only on the header
itself and the fixed catalog. -/
theorem build_mapping_order_independent (l1 l2 : List String)
    (hmem : ∀ x : String, x ∈ l1 ↔ x ∈ l2) (q : String) :
    dlookup (build_mapping l1) q = dlookup (build_mapping l2) q := by
  rw [build_mapping_lookup, build_mapping_lookup]
  refine if_congr ?_ rfl rfl
  constructor
  · rintro ⟨h, hh, he⟩; exact ⟨h, (hmem h).mp hh, he⟩
  · rintro ⟨h, hh, he⟩; exact ⟨h, (hmem h).mpr hh, he⟩

/-- C1 witness: two explicit enumerations of the same header set give the
same lookup result. -/
theorem build_mapping_order_independent_witness :
    dlookup (build_mapping ["Shipper Name", "qty", "zz"]) "qty" =
      dlookup (build_mapping ["zz", "qty", "Shipper Name"]) "qty" :=
  build_mapping_order_independent _ _
    (fun x =>
      (show List.Perm ["Shipper Name", "qty", "zz"] ["zz", "qty", "Shipper Name"]
        by decide).mem_iff)
    "qty"

/-- C2: the mapping is total over the stripped observed headers — every
observed raw header has an entry under its stripped spelling, and the entry
is a catalog field or the stripped header itself. -/
theorem build_mapping_total (hdrs : List String) (h : String)
    (hmem : h ∈ hdrs) :
    ∃ v, dlookup (build_mapping hdrs) (pyStrip h) = some v ∧
      (v ∈ UNIFIED_SCHEMA ∨ v = pyStrip h) := by
  refine ⟨resolveHeader (pyStrip h), ?_, resolveHeader_range (pyStrip h)⟩
  rw [build_mapping_lookup, if_pos ⟨h, hmem, rfl⟩]

/-- C2 witness: a catalog-resolvable header and an unmatched header both
receive entries. -/
theorem build_mapping_total_witness :
    (∃ v, dlookup (build_mapping ["Date", "mystery col"]) (pyStrip "mystery col")
        = some v ∧ (v ∈ UNIFIED_SCHEMA ∨ v = pyStrip "mystery col")) ∧
    (∃ v, dlookup (build_mapping ["Date", "mystery col"]) (pyStrip "Date")
        = some v ∧ (v ∈ UNIFIED_SCHEMA ∨ v = pyStrip "Date")) :=
  ⟨build_mapping_total _ _ (by decide), build_mapping_total _ _ (by decide)⟩

/-- C3: strict three-tier priority of `build_mapping`'s per-header
resolution, first hit wins — an alias-table hit decides the target; with no
alias hit, a normalized exact schema hit decides it; only with neither does
the fuzzy tier decide. -/
theorem resolveHeader_priority (s : String) :
    (∀ t, dlookup COLUMN_MAPPINGS (normalize_for_matching s) = some t →
      resolveHeader s = t) ∧
    (dlookup COLUMN_MAPPINGS (normalize_for_matching s) = none →
      ∀ u, dlookup schema_norm (normalize_for_matching s) = some u →
        resolveHeader s = u) ∧
    (dlookup COLUMN_MAPPINGS (normalize_for_matching s) = none →
      dlookup schema_norm (normalize_for_matching s) = none →
      resolveHeader s =
        match get_close_matches_1 (normalize_for_matching s)
            (schema_norm.map Prod.fst) FUZZY_MATCH_CUTOFF with
        | some m => (dlookup schema_norm m).getD s
        | none => s) := by
  refine ⟨?_, ?_, ?_⟩
  · intro t hal
    unfold resolveHeader
    simp only [hal]
  · intro hal u hsc
    unfold resolveHeader
    simp only [hal, hsc]
  · intro hal hsc
    unfold resolveHeader
    simp only [hal, hsc]
    cases hgc : get_close_matches_1 (normalize_for_matching s)
        (schema_norm.map Prod.fst) FUZZY_MATCH_CUTOFF with
    | some m =>
      simp only [hgc]
      cases hm : dlookup schema_norm m <;> simp [hm, Option.getD]
    | none => simp only [hgc]

/-- C3 witness: an alias-tier hit and a schema-tier hit, resolved through
the theorem. -/
theorem resolveHeader_priority_witness :
    resolveHeader "fob value" = "Estimated F.O.B Value $" ∧
    resolveHeader "HS Description" = "HS Description" :=
  ⟨(resolveHeader_priority "fob value").1 _ (by decide),
   ((resolveHeader_priority "HS Description").2.1 (by decide)) _ (by decide)⟩

/-- `gcmStep` on a below-cutoff possibility keeps the accumulator. -/
theorem gcmStep_low {word : String} {cutoff : ℚ} {x : String}
    (hc : ¬ cutoff ≤ seqRatio x word) (best : Option (ℚ × String)) :
    gcmStep word cutoff best x = best := by
  unfold gcmStep
  exact if_neg hc

/-- `gcmStep` on an above-cutoff possibility with empty accumulator takes the
possibility. -/
theorem gcmStep_none_pos {word : String} {cutoff : ℚ} {x : String}
    (hc : cutoff ≤ seqRatio x word) :
    gcmStep word cutoff none x = some (seqRatio x word, x) := by
  unfold gcmStep
  rw [if_pos hc]

/-- `gcmStep` replaces a strictly worse (or tie-smaller) held pair. -/
theorem gcmStep_some_pos {word : String} {cutoff : ℚ} {x : String}
    {br : ℚ} {bx : String} (hc : cutoff ≤ seqRatio x word)
    (hb : br < seqRatio x word ∨ (br = seqRatio x word ∧ pyStrLt bx x)) :
    gcmStep word cutoff (some (br, bx)) x = some (seqRatio x word, x) := by
  unfold gcmStep
  rw [if_pos hc]
  exact if_pos hb

/-- `gcmStep` keeps a held pair that is not beaten. -/
theorem gcmStep_some_neg {word : String} {cutoff : ℚ} {x : String}
    {br : ℚ} {bx : String} (hc : cutoff ≤ seqRatio x word)
    (hb : ¬ (br < seqRatio x word ∨ (br = seqRatio x word ∧ pyStrLt bx x))) :
    gcmStep word cutoff (some (br, bx)) x = some (br, bx) := by
  unfold gcmStep
  rw [if_pos hc]
  exact if_neg hb

/-- If every possibility scores below the cutoff, the fuzzy fold keeps
nothing. -/
theorem gcm_fold_none (word : String) (cutoff : ℚ) :
    ∀ poss : List String, (∀ u ∈ poss, seqRatio u word < cutoff) →
      poss.foldl (gcmStep word cutoff) none = none := by
  intro poss
  induction poss with
  | nil => intro _; rfl
  | cons h t ih =>
    intro hall
    have hh : seqRatio h word < cutoff := hall h (List.mem_cons_self _ _)
    simp only [List.foldl_cons, gcmStep_low (not_le_of_lt hh)]
    exact ih (fun u hu => hall u (List.mem_cons_of_mem _ hu))

/-- The score held by the fuzzy fold never decreases. -/
theorem gcm_fold_mono (word : String) (cutoff : ℚ) :
    ∀ (poss : List String) (r0 : ℚ) (x0 : String),
      ∃ r x, poss.foldl (gcmStep word cutoff) (some (r0, x0)) = some (r, x) ∧
        r0 ≤ r := by
  intro poss
  induction poss with
  | nil => intro r0 x0; exact ⟨r0, x0, rfl, le_refl r0⟩
  | cons h t ih =>
    intro r0 x0
    simp only [List.foldl_cons]
    by_cases hc : cutoff ≤ seqRatio h word
    · by_cases hb : r0 < seqRatio h word ∨ (r0 = seqRatio h word ∧ pyStrLt x0 h)
      · rw [gcmStep_some_pos hc hb]
        obtain ⟨r, x, heq, hle⟩ := ih (seqRatio h word) h
        refine ⟨r, x, heq, le_trans ?_ hle⟩
        rcases hb with hb | ⟨hb, _⟩
        · exact le_of_lt hb
        · exact le_of_eq hb
      · rw [gcmStep_some_neg hc hb]
        exact ih r0 x0
    · rw [gcmStep_low hc]
      exact ih r0 x0

/-- Any possibility at or above the cutoff forces the fuzzy fold to end with
at least its score. -/
theorem gcm_fold_reaches (word : String) (cutoff : ℚ) :
    ∀ (poss : List String) (best0 : Option (ℚ × String)) (v : String),
      v ∈ poss → cutoff ≤ seqRatio v word →
      ∃ r x, poss.foldl (gcmStep word cutoff) best0 = some (r, x) ∧
        seqRatio v word ≤ r := by
  intro poss
  induction poss with
  | nil => intro best0 v hv; cases hv
  | cons h t ih =>
    intro best0 v hv hcut
    rcases List.mem_cons.mp hv with rfl | hvt
    · simp only [List.foldl_cons]
      have hstep : ∃ r1 x1, gcmStep word cutoff best0 v = some (r1, x1) ∧
          seqRatio v word ≤ r1 := by
        cases best0 with
        | none => exact ⟨seqRatio v word, v, gcmStep_none_pos hcut, le_refl _⟩
        | some p =>
          obtain ⟨br, bx⟩ := p
          by_cases hb : br < seqRatio v word ∨
              (br = seqRatio v word ∧ pyStrLt bx v)
          · exact ⟨seqRatio v word, v, gcmStep_some_pos hcut hb, le_refl _⟩
          · refine ⟨br, bx, gcmStep_some_neg hcut hb, ?_⟩
            rcases not_or.mp hb with ⟨h1, _⟩
            exact le_of_not_lt h1
      obtain ⟨r1, x1, hstep, hle⟩ := hstep
      rw [hstep]
      obtain ⟨r, x, heq, hle2⟩ := gcm_fold_mono word cutoff t r1 x1
      exact ⟨r, x, heq, le_trans hle hle2⟩
    · simp only [List.foldl_cons]
      exact ih (gcmStep word cutoff best0 h) v hvt hcut

/-- Whatever the fuzzy fold returns is a genuine possibility scored at or
above the cutoff (unless it is the untouched initial value). -/
theorem gcm_fold_sound (word : String) (cutoff : ℚ) :
    ∀ (poss : List String) (best0 : Option (ℚ × String)) (r : ℚ) (x : String),
      poss.foldl (gcmStep word cutoff) best0 = some (r, x) →
      (x ∈ poss ∧ r = seqRatio x word ∧ cutoff ≤ r) ∨ best0 = some (r, x) := by
  intro poss
  induction poss with
  | nil => intro best0 r x h; exact Or.inr h
  | cons h t ih =>
    intro best0 r x hres
    simp only [List.foldl_cons] at hres
    rcases ih (gcmStep word cutoff best0 h) r x hres with ⟨hm, hr, hc⟩ | hstep
    · exact Or.inl ⟨List.mem_cons_of_mem _ hm, hr, hc⟩
    · by_cases hc : cutoff ≤ seqRatio h word
      · cases best0 with
        | none =>
          rw [gcmStep_none_pos hc] at hstep
          have h1 : seqRatio h word = r ∧ h = x := by
            have := Option.some.inj hstep
            exact ⟨congrArg Prod.fst this, congrArg Prod.snd this⟩
          obtain ⟨h1, h2⟩ := h1
          subst h2
          exact Or.inl ⟨List.mem_cons_self _ _, h1.symm, h1 ▸ hc⟩
        | some p =>
          obtain ⟨br, bx⟩ := p
          by_cases hb : br < seqRatio h word ∨
              (br = seqRatio h word ∧ pyStrLt bx h)
          · rw [gcmStep_some_pos hc hb] at hstep
            have h1 : seqRatio h word = r ∧ h = x := by
              have := Option.some.inj hstep
              exact ⟨congrArg Prod.fst this, congrArg Prod.snd this⟩
            obtain ⟨h1, h2⟩ := h1
            subst h2
            exact Or.inl ⟨List.mem_cons_self _ _, h1.symm, h1 ▸ hc⟩
          · rw [gcmStep_some_neg hc hb] at hstep
            exact Or.inr hstep
      · rw [gcmStep_low hc] at hstep
        exact Or.inr hstep

/-- A key occurring in a dict's key list can be looked up. -/
theorem dlookup_of_mem_keys {d : List (String × String)} {k : String}
    (h : k ∈ d.map Prod.fst) : ∃ v, dlookup d k = some v := by
  induction d with
  | nil => cases h
  | cons p rest ih =>
    obtain ⟨k1, v1⟩ := p
    by_cases hk : k1 = k
    · exact ⟨v1, by simp [dlookup, hk]⟩
    · rcases List.mem_cons.mp h with h1 | h1
      · exact absurd h1.symm hk
      · obtain ⟨v, hv⟩ := ih h1
        exact ⟨v, by simp [dlookup, hk, hv]⟩

/-- C4: on the fuzzy tier (alias and normalized schema lookups both miss,
and the normalized header is below difflib's 200-character autojunk
threshold, the regime this embedding models), a header whose similarity
scores against every normalized schema key are all strictly below the 0.80
cutoff is mapped to itself, while a unique highest-scoring key at or above
the cutoff decides the mapping: the header is sent to that key's catalog
field. -/
theorem fuzzy_tier_cutoff (s : String)
    (hlen : (normalize_for_matching s).length < 200)
    (hal : dlookup COLUMN_MAPPINGS (normalize_for_matching s) = none)
    (hsc : dlookup schema_norm (normalize_for_matching s) = none) :
    ((∀ u ∈ schema_norm.map Prod.fst,
        seqRatio u (normalize_for_matching s) < FUZZY_MATCH_CUTOFF) →
      resolveHeader s = s) ∧
    (∀ u ∈ schema_norm.map Prod.fst,
      FUZZY_MATCH_CUTOFF ≤ seqRatio u (normalize_for_matching s) →
      (∀ v ∈ schema_norm.map Prod.fst, v ≠ u →
        seqRatio v (normalize_for_matching s)
          < seqRatio u (normalize_for_matching s)) →
      ∃ t, dlookup schema_norm u = some t ∧ resolveHeader s = t) := by
  have hp := (resolveHeader_priority s).2.2 hal hsc
  constructor
  · intro hall
    have hnone : get_close_matches_1 (normalize_for_matching s)
        (schema_norm.map Prod.fst) FUZZY_MATCH_CUTOFF = none := by
      unfold get_close_matches_1
      rw [gcm_fold_none _ _ _ hall]
      rfl
    rw [hnone] at hp
    exact hp
  · intro u hu hcut hmax
    obtain ⟨r, x, heq, hge⟩ :=
      gcm_fold_reaches (normalize_for_matching s) FUZZY_MATCH_CUTOFF
        (schema_norm.map Prod.fst) none u hu hcut
    rcases gcm_fold_sound (normalize_for_matching s) FUZZY_MATCH_CUTOFF
        (schema_norm.map Prod.fst) none r x heq with ⟨hxm, hrx, _⟩ | hbad
    · have hxu : x = u := by
        by_contra hne
        have hlt := hmax x hxm hne
        rw [← hrx] at hlt
        exact absurd hlt (not_lt.mpr hge)
      subst hxu
      have hsome : get_close_matches_1 (normalize_for_matching s)
          (schema_norm.map Prod.fst) FUZZY_MATCH_CUTOFF = some x := by
        unfold get_close_matches_1
        rw [heq]
        rfl
      rw [hsome] at hp
      obtain ⟨t, ht⟩ := dlookup_of_mem_keys hu
      refine ⟨t, ht, ?_⟩
      rw [hp]
      show (dlookup schema_norm x).getD s = t
      rw [ht]
      rfl
    · cases hbad

/-- `schema_norm`, evaluated: the insertion-ordered normalized key / catalog
value pairs ("tax" holds the later colliding entry "Tax %"). -/
theorem schema_norm_eval : schema_norm =
  [("date", "Date"),
   ("hs code", "HS Code"),
   ("product description", "Product Description"),
   ("hs description", "HS Description"),
   ("hs2", "HS2"),
   ("hs4", "HS4"),
   ("month", "Month"),
   ("shipper name", "Shipper Name"),
   ("consignee name", "Consignee Name"),
   ("notify party", "Notify Party"),
   ("shipper address1", "Shipper Address1"),
   ("shipper address2", "Shipper Address2"),
   ("shipper city", "Shipper City"),
   ("shipper state", "Shipper State"),
   ("shipper pincode", "Shipper Pincode"),
   ("shipper phone", "Shipper Phone"),
   ("shipper email", "Shipper Email"),
   ("shipper contact person", "Shipper Contact Person"),
   ("consignee address 1", "Consignee Address 1"),
   ("consignee address 2", "Consignee Address 2"),
   ("consignee city", "Consignee City"),
   ("consignee state", "Consignee State"),
   ("consignee pincode", "Consignee Pincode"),
   ("consignee phone", "Consignee Phone"),
   ("consignee e mail", "Consignee E-mail"),
   ("contact person", "Contact Person"),
   ("port of origin", "Port of Origin"),
   ("port of destination", "Port of Destination"),
   ("country of origin", "Country of Origin"),
   ("country of destination", "Country of Destination"),
   ("shipment mode", "Shipment Mode"),
   ("standard qty", "Standard Qty"),
   ("standard unit", "Standard Unit"),
   ("qty", "QTY"),
   ("unit", "Unit"),
   ("standard unit rate", "Standard Unit Rate $"),
   ("estimated f o b value", "Estimated F.O.B Value $"),
   ("estimated cif value", "Estimated CIF Value $"),
   ("estimated unit rate", "Estimated Unit Rate $"),
   ("unit rate", "Unit Rate $"),
   ("value in fc", "Value in FC"),
   ("rate in fc", "Rate In FC"),
   ("rate currency", "Rate Currency"),
   ("landed value", "Landed Value $"),
   ("tax", "Tax %"),
   ("freight value", "Freight Value $"),
   ("insurance value", "Insurance Value $"),
   ("bl typ", "BL TYP"),
   ("terms", "Terms"),
   ("gross weight", "Gross Weight"),
   ("gross weight unit", "Gross Weight Unit"),
   ("raw shipper name", "Raw Shipper Name"),
   ("raw consignee name", "Raw Consignee Name"),
   ("raw shipper address1", "Raw Shipper Address1"),
   ("raw shipper address2", "Raw Shipper Address2"),
   ("raw shipper city", "Raw Shipper City"),
   ("raw shipper state", "Raw Shipper State"),
   ("raw consignee add1", "Raw Consignee Add1"),
   ("raw consignee add2", "Raw Consignee Add2"),
   ("raw consignee city", "Raw Consignee City"),
   ("raw consignee state", "Raw Consignee State"),
   ("raw consignee pincode", "Raw Consignee Pincode"),
   ("raw consignee phone", "Raw Consignee Phone"),
   ("raw consignee e mail", "Raw Consignee E-mail"),
   ("raw consignee country", "Raw Consignee Country"),
   ("is unique", "Is Unique"),
   ("isunique", "IsUnique"),
   ("record id", "Record Id"),
   ("iec", "IEC")] := by
  decide

set_option maxHeartbeats 2000000 in
set_option maxRecDepth 8000 in
/-- C4 witness: `"zq"` scores below the cutoff against every schema key and
passes through unchanged, while `"hs cod"` has the unique best match
`"hs code"` (score 12/13) and is mapped to `"HS Code"`. -/
theorem fuzzy_tier_cutoff_witness :
    resolveHeader "zq" = "zq" ∧ resolveHeader "hs cod" = "HS Code" := by
  constructor
  · exact (fuzzy_tier_cutoff "zq" (by decide) (by decide)
      (by rw [schema_norm_eval]; decide)).1
      (by rw [schema_norm_eval]; decide)
  · obtain ⟨t, ht, hr⟩ := (fuzzy_tier_cutoff "hs cod" (by decide) (by decide)
      (by rw [schema_norm_eval]; decide)).2 "hs code"
      (by rw [schema_norm_eval]; decide)
      (by decide)
      (by rw [schema_norm_eval]; decide)
    have hkv : dlookup schema_norm "hs code" = some "HS Code" := by
      rw [schema_norm_eval]; decide
    rw [ht] at hkv
    cases Option.some.inj hkv
    exact hr

/-- C7: for a column with a non-empty non-null sample, `create_table`
classifies it DOUBLE exactly when strictly more than 80% of the first
(up to) 100 sampled values parse as Python floats after comma removal
(`cnt/denom > 0.8` as exact cross-multiplication), and otherwise emits a
text type (TEXT or a sized VARCHAR). -/
theorem create_table_numeric_threshold (vals : List (Option String))
    (hne : vals.filterMap id ≠ []) :
    (4 * min (vals.filterMap id).length 100 <
        5 * (((vals.filterMap id).take 100).filter
          (fun v => pyFloatAccepts (removeCommas v))).length →
      create_table_column_type vals = "DOUBLE") ∧
    (5 * (((vals.filterMap id).take 100).filter
          (fun v => pyFloatAccepts (removeCommas v))).length ≤
        4 * min (vals.filterMap id).length 100 →
      create_table_column_type vals = "TEXT" ∨
      ∃ m : Nat,
        create_table_column_type vals = "VARCHAR(" ++ Nat.repr m ++ ")") := by
  have hlen : ¬ (vals.filterMap id).length = 0 := by
    intro h
    exact hne (List.length_eq_zero.mp h)
  constructor
  · intro hgt
    simp only [create_table_column_type]
    rw [if_neg hlen, if_pos hgt]
  · intro hle
    simp only [create_table_column_type]
    rw [if_neg hlen, if_neg (not_lt.mpr hle)]
    by_cases h0 : ((vals.filterMap id).map String.length).foldl max 0 = 0
    · rw [if_pos h0]
      exact Or.inl rfl
    · rw [if_neg h0]
      by_cases h255 : ((vals.filterMap id).map String.length).foldl max 0 < 255
      · rw [if_pos h255]
        exact Or.inr ⟨_, rfl⟩
      · rw [if_neg h255]
        exact Or.inl rfl

/-- C7 witness: 85 of 100 numeric sampled values classify DOUBLE; 75 of 100
classify as a text type. -/
theorem create_table_numeric_threshold_witness :
    create_table_column_type
        (List.replicate 85 (some "1") ++ List.replicate 15 (some "x"))
      = "DOUBLE" ∧
    (create_table_column_type
        (List.replicate 75 (some "1") ++ List.replicate 25 (some "x"))
      = "TEXT" ∨
      ∃ m : Nat,
        create_table_column_type
          (List.replicate 75 (some "1") ++ List.replicate 25 (some "x"))
        = "VARCHAR(" ++ Nat.repr m ++ ")") :=
  ⟨(create_table_numeric_threshold _ (by decide)).1 (by decide),
   (create_table_numeric_threshold _ (by decide)).2 (by decide)⟩

/-- A fold adding `f b` on `p`-batches equals the starting value plus the sum
over the filtered list. -/
theorem foldl_if_sum (p : Nat → Bool) (f : Nat → Nat) :
    ∀ (l : List Nat) (a : Nat),
      l.foldl (fun acc b => if p b then acc + f b else acc) a
        = a + ((l.filter p).map f).sum := by
  intro l
  induction l with
  | nil => intro a; simp
  | cons h t ih =>
    intro a
    by_cases hp : p h
    · simp only [List.foldl_cons, if_pos hp, List.filter_cons_of_pos hp,
        List.map_cons, List.sum_cons, ih]
      omega
    · simp only [List.foldl_cons, if_neg hp, ih,
        List.filter_cons_of_neg (by simpa using hp)]
  
/-- A fold adding `f b` unconditionally equals the starting value plus the
mapped sum. -/
theorem foldl_add_sum (f : Nat → Nat) :
    ∀ (l : List Nat) (a : Nat),
      l.foldl (fun acc b => acc + f b) a = a + (l.map f).sum := by
  intro l
  induction l with
  | nil => intro a; simp
  | cons h t ih =>
    intro a
    simp only [List.foldl_cons, List.map_cons, List.sum_cons, ih]
    omega

/-- One batch's row count, as a difference of clamped prefix lengths. -/
theorem batch_len_telescope (n b : Nat) :
    batchStop n b - batchStart b
      = min ((b + 1) * BATCH_SIZE) n - min (b * BATCH_SIZE) n := by
  simp only [batchStop, batchStart, BATCH_SIZE]
  have : b * 25000 + 25000 = (b + 1) * 25000 := by ring
  rw [this]
  rcases Nat.le_total (b * 25000) n with h | h
  · rw [Nat.min_eq_left h]
  · rw [Nat.min_eq_right h]
    have h2 : n ≤ (b + 1) * 25000 := by
      refine le_trans h ?_
      exact Nat.mul_le_mul_right _ (Nat.le_succ b)
    rw [Nat.min_eq_right h2]
    omega

/-- The batch row counts sum to the clamped total. -/
theorem sum_batch_sizes (n : Nat) :
    ∀ k : Nat,
      (((List.range k).map (fun b => batchStop n b - batchStart b)).sum)
        = min (k * BATCH_SIZE) n := by
  intro k
  induction k with
  | zero => simp
  | succ k ih =>
    rw [List.range_succ, List.map_append, List.sum_append]
    simp only [List.map_cons, List.map_nil, List.sum_cons, List.sum_nil]
    rw [ih, batch_len_telescope]
    have hmono : min (k * BATCH_SIZE) n ≤ min ((k + 1) * BATCH_SIZE) n :=
      min_le_min (Nat.mul_le_mul_right _ (Nat.le_succ k)) (le_refl n)
    omega

/-- Enough batches are scheduled to cover every row. -/
theorem numBatches_mul_ge (n : Nat) : n ≤ numBatches n * BATCH_SIZE := by
  simp only [numBatches, BATCH_SIZE]
  omega

/-- The retry loop succeeds within its fuel exactly when some attempt in the
window succeeds. -/
theorem attemptBatch_iff (succ : Nat → Nat → Bool) (b : Nat) :
    ∀ (fuel s : Nat),
      attemptBatch succ b fuel s = true ↔ ∃ i < fuel, succ b (s + i) = true := by
  intro fuel
  induction fuel with
  | zero =>
    intro s
    simp [attemptBatch]
  | succ fuel ih =>
    intro s
    simp only [attemptBatch]
    by_cases h : succ b s = true
    · rw [if_pos h]
      simp only [true_iff]
      exact ⟨0, Nat.succ_pos _, by simpa using h⟩
    · rw [if_neg h]
      rw [ih (s + 1)]
      constructor
      · rintro ⟨i, hi, hsi⟩
        exact ⟨i + 1, by omega, by rw [show s + (i + 1) = s + 1 + i by omega]; exact hsi⟩
      · rintro ⟨i, hi, hsi⟩
        cases i with
        | zero => exact absurd (by simpa using hsi) h
        | succ i =>
          exact ⟨i, by omega, by rw [show s + 1 + i = s + (i + 1) by omega]; exact hsi⟩

/-- C8: `upload_to_mysql` splits the dataset into contiguous batches of at
most `BATCH_SIZE` rows covering every row exactly once; a batch is
permanently failed exactly when all `MAX_RETRIES` attempts fail, failed
batches do not stop later batches from being counted, and the reported
uploaded row count equals the total row count minus the failed batches' row
counts. -/
theorem upload_batching (n : Nat) (succ : Nat → Nat → Bool) :
    (∀ b, batchStop n b - batchStart b ≤ BATCH_SIZE) ∧
    (∀ r, r < n →
      ∃! b, b < numBatches n ∧ batchStart b ≤ r ∧ r < batchStop n b) ∧
    (∀ b, batchUploaded succ b = false ↔
      ∀ a, a < MAX_RETRIES → succ b a = false) ∧
    upload_to_mysql n succ = n - failedRows n succ := by
  refine ⟨?_, ?_, ?_, ?_⟩
  · intro b
    simp only [batchStop, batchStart, BATCH_SIZE]
    omega
  · intro r hr
    refine ⟨r / BATCH_SIZE, ⟨?_, ?_, ?_⟩, ?_⟩
    · simp only [numBatches, BATCH_SIZE] at *
      omega
    · simp only [batchStart, BATCH_SIZE] at *
      omega
    · simp only [batchStop, batchStart, BATCH_SIZE] at *
      omega
    · intro b hb
      obtain ⟨hb1, hb2, hb3⟩ := hb
      simp only [numBatches, batchStop, batchStart, BATCH_SIZE] at *
      omega
  · intro b
    rw [show batchUploaded succ b = attemptBatch succ b MAX_RETRIES 0 from rfl]
    constructor
    · intro hfail a ha
      by_contra habs
      have : attemptBatch succ b MAX_RETRIES 0 = true :=
        (attemptBatch_iff succ b MAX_RETRIES 0).mpr
          ⟨a, ha, by simpa using Bool.of_not_eq_false habs⟩
      rw [this] at hfail
      cases hfail
    · intro hall
      by_contra habs
      have htrue : attemptBatch succ b MAX_RETRIES 0 = true :=
        Bool.of_not_eq_false habs
      obtain ⟨i, hi, hsi⟩ := (attemptBatch_iff succ b MAX_RETRIES 0).mp htrue
      rw [Nat.zero_add] at hsi
      rw [hall i hi] at hsi
      cases hsi
  · have hsplit := foldl_if_sum (fun b => batchUploaded succ b)
      (fun b => batchStop n b - batchStart b) (List.range (numBatches n)) 0
    have hsplit2 := foldl_if_sum (fun b => ! batchUploaded succ b)
      (fun b => batchStop n b - batchStart b) (List.range (numBatches n)) 0
    have hup : upload_to_mysql n succ
        = (((List.range (numBatches n)).filter
            (fun b => batchUploaded succ b)).map
              (fun b => batchStop n b - batchStart b)).sum := by
      rw [upload_to_mysql]
      rw [hsplit]
      omega
    have hfail : failedRows n succ
        = (((List.range (numBatches n)).filter
            (fun b => ! batchUploaded succ b)).map
              (fun b => batchStop n b - batchStart b)).sum := by
      rw [failedRows]
      have : ∀ l : List Nat, ∀ a : Nat,
          l.foldl (fun acc b =>
            if batchUploaded succ b then acc
            else acc + (batchStop n b - batchStart b)) a
          = l.foldl (fun acc b =>
            if ! batchUploaded succ b then acc + (batchStop n b - batchStart b)
            else acc) a := by
        intro l
        induction l with
        | nil => intro a; rfl
        | cons h t ih =>
          intro a
          simp only [List.foldl_cons]
          cases hb : batchUploaded succ h <;> simp [hb, ih]
      rw [this, hsplit2]
      omega
    have hperm : ((List.range (numBatches n)).filter
          (fun b => batchUploaded succ b)) ++
        ((List.range (numBatches n)).filter
          (fun b => ! batchUploaded succ b))
        |>.Perm (List.range (numBatches n)) :=
      List.filter_append_perm _ _
    have htot : upload_to_mysql n succ + failedRows n succ
        = min (numBatches n * BATCH_SIZE) n := by
      rw [hup, hfail, ← List.sum_append, ← List.map_append]
      rw [List.Perm.sum_eq (List.Perm.map _ hperm)]
      exact sum_batch_sizes n (numBatches n)
    have hmin : min (numBatches n * BATCH_SIZE) n = n :=
      Nat.min_eq_right (numBatches_mul_ge n)
    omega

/-- C8 witness: 60 000 rows, three batches, batch 1 permanently failing on
every attempt — the reported count is the total minus exactly that batch's
25 000 rows. -/
theorem upload_batching_witness :
    upload_to_mysql 60000 (fun b _ => b != 1)
        = 60000 - failedRows 60000 (fun b _ => b != 1) ∧
    failedRows 60000 (fun b _ => b != 1) = 25000 ∧
    upload_to_mysql 60000 (fun b _ => b != 1) = 35000 :=
  ⟨(upload_batching 60000 (fun b _ => b != 1)).2.2.2, by decide, by decide⟩

/-- Character order in terms of code points. -/
theorem char_le_toNat {a b : Char} : a ≤ b ↔ a.toNat ≤ b.toNat := by
  rw [Char.le_def, UInt32.le_def, BitVec.le_def]
  exact Iff.rfl

/-- `UInt32` order in terms of values. -/
theorem uint32_le_toNat {a b : UInt32} : a ≤ b ↔ a.toNat ≤ b.toNat := by
  rw [UInt32.le_def, BitVec.le_def]
  exact Iff.rfl

/-- Character equality in terms of code points. -/
theorem char_eq_toNat {c d : Char} : c = d ↔ c.toNat = d.toNat := by
  constructor
  · rintro rfl; rfl
  · intro h
    apply Char.ext
    apply UInt32.eq_of_toBitVec_eq
    exact BitVec.toNat_eq.mpr h

theorem isLower_iff {c : Char} :
    c.isLower = true ↔ 97 ≤ c.toNat ∧ c.toNat ≤ 122 := by
  simp only [Char.isLower, Bool.and_eq_true, decide_eq_true_eq, ge_iff_le,
    uint32_le_toNat]
  exact Iff.rfl

theorem isUpper_iff {c : Char} :
    c.isUpper = true ↔ 65 ≤ c.toNat ∧ c.toNat ≤ 90 := by
  simp only [Char.isUpper, Bool.and_eq_true, decide_eq_true_eq, ge_iff_le,
    uint32_le_toNat]
  exact Iff.rfl

theorem isDigit_iff {c : Char} :
    c.isDigit = true ↔ 48 ≤ c.toNat ∧ c.toNat ≤ 57 := by
  simp only [Char.isDigit, Bool.and_eq_true, decide_eq_true_eq, ge_iff_le,
    uint32_le_toNat]
  exact Iff.rfl

theorem pyIsSpace_iff {c : Char} :
    pyIsSpace c = true ↔
      c.toNat = 32 ∨ c.toNat = 9 ∨ c.toNat = 10 ∨ c.toNat = 13 ∨
      c.toNat = 11 ∨ c.toNat = 12 := by
  simp only [pyIsSpace, Bool.or_eq_true, decide_eq_true_eq, char_eq_toNat,
    show (' ' : Char).toNat = 32 from rfl, show ('\t' : Char).toNat = 9 from rfl,
    show ('\n' : Char).toNat = 10 from rfl,
    show ('\x0d' : Char).toNat = 13 from rfl,
    show ('\x0b' : Char).toNat = 11 from rfl,
    show ('\x0c' : Char).toNat = 12 from rfl]
  tauto

/-- A lowercase identifier character: what `sanitize_column_name` outputs. -/
def goodCharB (c : Char) : Bool :=
  c.isLower || c.isDigit || c = '_'

theorem goodCharB_iff {c : Char} :
    goodCharB c = true ↔
      (97 ≤ c.toNat ∧ c.toNat ≤ 122) ∨ (48 ≤ c.toNat ∧ c.toNat ≤ 57) ∨
      c.toNat = 95 := by
  simp only [goodCharB, Bool.or_eq_true, decide_eq_true_eq, isLower_iff,
    isDigit_iff, char_eq_toNat, show ('_' : Char).toNat = 95 from rfl]
  tauto

theorem pyIsWordChar_iff {c : Char} :
    pyIsWordChar c = true ↔
      (65 ≤ c.toNat ∧ c.toNat ≤ 90) ∨ (97 ≤ c.toNat ∧ c.toNat ≤ 122) ∨
      (48 ≤ c.toNat ∧ c.toNat ≤ 57) ∨ c.toNat = 95 := by
  simp only [pyIsWordChar, Char.isAlpha, Bool.or_eq_true, decide_eq_true_eq,
    isLower_iff, isUpper_iff, isDigit_iff, char_eq_toNat,
    show ('_' : Char).toNat = 95 from rfl]
  tauto

/-- `Char.ofNat` below the surrogate range keeps the code point. -/
theorem char_toNat_ofNat {n : Nat} (h : n < 55296) :
    (Char.ofNat n).toNat = n := by
  rw [Char.ofNat, dif_pos (Or.inl h)]
  rfl

theorem goodCharB_not_space {c : Char} (h : goodCharB c = true) :
    pyIsSpace c = false := by
  rw [← Bool.not_eq_true]
  intro hs
  rw [goodCharB_iff] at h
  rw [pyIsSpace_iff] at hs
  omega

theorem goodCharB_not_special {c : Char} (h : goodCharB c = true) :
    c ∉ pySpecials := by
  intro hc
  rw [goodCharB_iff] at h
  have : c.toNat = 36 ∨ c.toNat = 37 ∨ c.toNat = 46 ∨ c.toNat = 63 ∨
      c.toNat = 40 ∨ c.toNat = 41 ∨ c.toNat = 91 ∨ c.toNat = 93 ∨
      c.toNat = 123 ∨ c.toNat = 125 := by
    simp only [pySpecials, List.mem_cons, List.not_mem_nil, or_false] at hc
    rcases hc with h1 | h1 | h1 | h1 | h1 | h1 | h1 | h1 | h1 | h1 <;>
      rw [char_eq_toNat] at h1 <;> simp [h1]
  omega

theorem goodCharB_word {c : Char} (h : goodCharB c = true) :
    pyIsWordChar c = true := by
  rw [goodCharB_iff] at h
  rw [pyIsWordChar_iff]
  omega

theorem goodCharB_toLower {c : Char} (h : goodCharB c = true) :
    pyToLower c = c := by
  unfold pyToLower
  rw [if_neg]
  rintro ⟨h1, h2⟩
  rw [char_le_toNat] at h1 h2
  rw [goodCharB_iff] at h
  have h1n : 65 ≤ c.toNat := h1
  have h2n : c.toNat ≤ 90 := h2
  omega

theorem word_toLower_good {c : Char} (h : pyIsWordChar c = true) :
    goodCharB (pyToLower c) = true := by
  unfold pyToLower
  rw [pyIsWordChar_iff] at h
  by_cases hAZ : 'A' ≤ c ∧ c ≤ 'Z'
  · rw [if_pos hAZ]
    obtain ⟨h1, h2⟩ := hAZ
    rw [char_le_toNat] at h1 h2
    have h1n : 65 ≤ c.toNat := h1
    have h2n : c.toNat ≤ 90 := h2
    rw [goodCharB_iff, char_toNat_ofNat (by omega)]
    omega
  · rw [if_neg hAZ]
    rw [goodCharB_iff]
    have : ¬ (65 ≤ c.toNat ∧ c.toNat ≤ 90) := by
      intro ⟨h1, h2⟩
      exact hAZ ⟨char_le_toNat.mpr h1, char_le_toNat.mpr h2⟩
    omega

theorem toLower_underscore_iff {c : Char} : pyToLower c = '_' ↔ c = '_' := by
  unfold pyToLower
  by_cases hAZ : 'A' ≤ c ∧ c ≤ 'Z'
  · rw [if_pos hAZ]
    obtain ⟨h1, h2⟩ := hAZ
    rw [char_le_toNat] at h1 h2
    have h1n : 65 ≤ c.toNat := h1
    have h2n : c.toNat ≤ 90 := h2
    constructor
    · intro h
      rw [char_eq_toNat, char_toNat_ofNat (by omega),
        show ('_' : Char).toNat = 95 from rfl] at h
      omega
    · intro h
      rw [char_eq_toNat, show ('_' : Char).toNat = 95 from rfl] at h
      omega
  · rw [if_neg hAZ]

/-- No two adjacent underscores. -/
def noDD (l : List Char) : Prop := ¬ ['_', '_'] <:+: l

instance (l : List Char) : Decidable (noDD l) :=
  @instDecidableNot _ (List.decidableInfix _ l)

theorem pair_prefix_iff {x : Char} {rest : List Char} :
    (['_', '_'] <+: x :: rest) ↔ (x = '_' ∧ rest.head? = some '_') := by
  rw [List.cons_prefix_cons]
  constructor
  · rintro ⟨h1, h2⟩
    refine ⟨h1.symm, ?_⟩
    cases rest with
    | nil => exact absurd h2 (by simp)
    | cons c cs =>
      rw [List.cons_prefix_cons] at h2
      simp [h2.1.symm]
  · rintro ⟨h1, h2⟩
    refine ⟨h1.symm, ?_⟩
    cases rest with
    | nil => simp at h2
    | cons c cs =>
      simp only [List.head?_cons, Option.some.injEq] at h2
      rw [List.cons_prefix_cons]
      exact ⟨h2.symm, List.nil_prefix⟩

theorem noDD_cons_iff {x : Char} {rest : List Char} :
    noDD (x :: rest) ↔
      ¬ (x = '_' ∧ rest.head? = some '_') ∧ noDD rest := by
  unfold noDD
  rw [List.infix_cons_iff, pair_prefix_iff]
  tauto

theorem noDD_nil : noDD [] := by decide

theorem noDD_infixOf {l1 l2 : List Char} (h : l1 <:+: l2) (h2 : noDD l2) :
    noDD l1 :=
  fun hinf => h2 (hinf.trans h)

theorem noDD_reverse {l : List Char} (h : noDD l) : noDD l.reverse := by
  intro hinf
  apply h
  have : (['_', '_'] : List Char).reverse <:+: l.reverse.reverse := by
    rw [List.reverse_infix]
    exact hinf
  simpa using this

theorem noDD_map {f : Char → Char} (hf : ∀ c, f c = '_' ↔ c = '_')
    {l : List Char} (h : noDD l) : noDD (l.map f) := by
  induction l with
  | nil => simpa using noDD_nil
  | cons x rest ih =>
    rw [List.map_cons, noDD_cons_iff]
    rw [noDD_cons_iff] at h
    refine ⟨?_, ih h.2⟩
    rintro ⟨h1, h2⟩
    apply h.1
    refine ⟨(hf x).mp h1, ?_⟩
    cases rest with
    | nil => simp at h2
    | cons c cs =>
      simp only [List.map_cons, List.head?_cons, Option.some.injEq] at h2
      simp [(hf c).mp h2]

/-- A normalized identifier as produced by `sanitize_column_name`: non-empty,
lowercase word characters, no leading digit, no leading/trailing underscore,
no doubled underscore. -/
def goodIdent (l : List Char) : Prop :=
  l ≠ [] ∧ (∀ c ∈ l, goodCharB c = true) ∧ l.head? ≠ some '_' ∧
  l.getLast? ≠ some '_' ∧ noDD l ∧
  ∀ c, l.head? = some c → c.isDigit = false

instance (l : List Char) : Decidable (goodIdent l) := by
  unfold goodIdent
  infer_instance

theorem collapseRuns_cons_pos_true {p : Char → Bool} {r x : Char}
    (hx : p x = true) (cs : List Char) :
    collapseRuns p r (x :: cs) true = collapseRuns p r cs true := by
  rw [collapseRuns, if_pos hx]
  rfl

theorem collapseRuns_cons_pos_false {p : Char → Bool} {r x : Char}
    (hx : p x = true) (cs : List Char) :
    collapseRuns p r (x :: cs) false = r :: collapseRuns p r cs true := by
  rw [collapseRuns, if_pos hx]
  rfl

theorem collapseRuns_cons_neg {p : Char → Bool} {r x : Char}
    (hx : ¬ p x = true) (cs : List Char) (flag : Bool) :
    collapseRuns p r (x :: cs) flag = x :: collapseRuns p r cs false := by
  rw [collapseRuns, if_neg hx]

/-- Every character of a collapsed list is the replacement or a
non-`p` input character. -/
theorem mem_collapseRuns {p : Char → Bool} {r : Char} :
    ∀ (l : List Char) (flag : Bool) (c : Char),
      c ∈ collapseRuns p r l flag → c = r ∨ (c ∈ l ∧ p c = false) := by
  intro l
  induction l with
  | nil => intro flag c hc; cases hc
  | cons x rest ih =>
    intro flag c hc
    by_cases hx : p x
    · cases flag with
      | true =>
        rw [collapseRuns_cons_pos_true hx] at hc
        rcases ih true c hc with h | h
        · exact Or.inl h
        · exact Or.inr ⟨List.mem_cons_of_mem _ h.1, h.2⟩
      | false =>
        rw [collapseRuns_cons_pos_false hx] at hc
        simp only [List.mem_cons] at hc
        rcases hc with rfl | hc
        · exact Or.inl rfl
        · rcases ih true c hc with h | h
          · exact Or.inl h
          · exact Or.inr ⟨List.mem_cons_of_mem _ h.1, h.2⟩
    · rw [collapseRuns_cons_neg hx] at hc
      simp only [List.mem_cons] at hc
      rcases hc with rfl | hc
      · exact Or.inr ⟨List.mem_cons_self _ _, by simpa using hx⟩
      · rcases ih false c hc with h | h
        · exact Or.inl h
        · exact Or.inr ⟨List.mem_cons_of_mem _ h.1, h.2⟩

/-- Inside a run (`flag = true`), the next emitted character is a
non-`p` character. -/
theorem head_collapseRuns_true {p : Char → Bool} {r : Char} :
    ∀ (l : List Char) (c : Char),
      (collapseRuns p r l true).head? = some c → p c = false := by
  intro l
  induction l with
  | nil => intro c hc; cases hc
  | cons x rest ih =>
    intro c hc
    by_cases hx : p x
    · rw [collapseRuns_cons_pos_true hx] at hc
      exact ih c hc
    · rw [collapseRuns_cons_neg hx] at hc
      simp only [List.head?_cons, Option.some.injEq] at hc
      subst hc
      simpa using hx

/-- The underscore-run collapse never emits two adjacent underscores. -/
theorem noDD_collapseU :
    ∀ (l : List Char) (flag : Bool),
      noDD (collapseRuns (fun c => c = '_') '_' l flag) := by
  intro l
  induction l with
  | nil => intro flag; exact noDD_nil
  | cons x rest ih =>
    intro flag
    by_cases hx : (x = '_')
    · cases flag with
      | true =>
        rw [collapseRuns_cons_pos_true (by simpa using hx)]
        exact ih true
      | false =>
        rw [collapseRuns_cons_pos_false (by simpa using hx)]
        rw [noDD_cons_iff]
        refine ⟨?_, ih true⟩
        rintro ⟨_, h2⟩
        have := head_collapseRuns_true _ _ h2
        simp at this
    · rw [collapseRuns_cons_neg (by simpa using hx)]
      rw [noDD_cons_iff]
      refine ⟨?_, ih false⟩
      rintro ⟨h1, _⟩
      exact hx h1

/-- Collapsing does nothing when no character matches. -/
theorem collapseRuns_no_p {p : Char → Bool} {r : Char} :
    ∀ (l : List Char), (∀ c ∈ l, p c = false) →
      ∀ flag, collapseRuns p r l flag = l := by
  intro l
  induction l with
  | nil => intro _ flag; rfl
  | cons x rest ih =>
    intro h flag
    have hx : ¬ p x = true := by
      rw [h x (List.mem_cons_self _ _)]
      simp
    rw [collapseRuns_cons_neg hx]
    rw [ih (fun c hc => h c (List.mem_cons_of_mem _ hc)) false]

/-- Collapsing underscore runs does nothing on a list with no doubled
underscore (and, inside a run, no leading underscore). -/
theorem collapseU_id :
    ∀ (l : List Char) (flag : Bool), noDD l →
      (flag = true → l.head? ≠ some '_') →
      collapseRuns (fun c => c = '_') '_' l flag = l := by
  intro l
  induction l with
  | nil => intro flag _ _; rfl
  | cons x rest ih =>
    intro flag hdd hflag
    rw [noDD_cons_iff] at hdd
    by_cases hx : (x = '_')
    · cases flag with
      | true =>
        exact absurd (by rw [hx]; rfl) (hflag rfl)
      | false =>
        rw [collapseRuns_cons_pos_false (by simpa using hx)]
        subst hx
        rw [ih true hdd.2 (fun _ hh => hdd.1 ⟨rfl, hh⟩)]
    · rw [collapseRuns_cons_neg (by simpa using hx)]
      rw [ih false hdd.2 (by simp)]

/-- `dropWhile` does nothing when no character matches. -/
theorem dropWhile_eq_self_all {p : Char → Bool} :
    ∀ (l : List Char), (∀ c ∈ l, p c = false) → l.dropWhile p = l := by
  intro l
  induction l with
  | nil => intro _; rfl
  | cons x rest _ =>
    intro h
    rw [List.dropWhile_cons_of_neg]
    rw [h x (List.mem_cons_self _ _)]
    simp

/-- `dropWhile` does nothing when the head does not match. -/
theorem dropWhile_eq_self_head {p : Char → Bool} :
    ∀ (l : List Char), (∀ c, l.head? = some c → p c = false) →
      l.dropWhile p = l := by
  intro l
  cases l with
  | nil => intro _; rfl
  | cons x rest =>
    intro h
    rw [List.dropWhile_cons_of_neg]
    rw [h x rfl]
    simp

/-- `dropTrailing` does nothing when the last character does not match. -/
theorem dropTrailing_eq_self_last {p : Char → Bool} (l : List Char)
    (h : ∀ c, l.getLast? = some c → p c = false) : dropTrailing p l = l := by
  unfold dropTrailing
  rw [dropWhile_eq_self_head]
  · exact List.reverse_reverse l
  · intro c hc
    rw [List.head?_reverse] at hc
    exact h c hc

/-- A map that fixes every element is the identity. -/
theorem map_congr_id {f : Char → Char} :
    ∀ (l : List Char), (∀ c ∈ l, f c = c) → l.map f = l := by
  intro l
  induction l with
  | nil => intro _; rfl
  | cons x rest ih =>
    intro h
    rw [List.map_cons, h x (List.mem_cons_self _ _),
      ih (fun c hc => h c (List.mem_cons_of_mem _ hc))]

/-- Usable form of `head?_dropWhile_not`. -/
theorem head?_dropWhile_false {p : Char → Bool} {l : List Char} {c : Char}
    (h : (l.dropWhile p).head? = some c) : p c = false := by
  have hw := List.head?_dropWhile_not p l
  rw [h] at hw
  exact hw

/-- `dropTrailing` yields a prefix. -/
theorem dropTrailing_prefixOf (p : Char → Bool) (l : List Char) :
    dropTrailing p l <+: l := by
  have h : List.dropWhile p l.reverse <:+ l.reverse :=
    List.dropWhile_suffix p
  have h2 : (List.dropWhile p l.reverse).reverse <+: l.reverse.reverse :=
    List.reverse_prefix.mpr h
  rw [List.reverse_reverse] at h2
  exact h2

/-- Elements of `dropTrailing` come from the list. -/
theorem dropTrailing_subset {p : Char → Bool} {l : List Char} {c : Char}
    (hc : c ∈ dropTrailing p l) : c ∈ l :=
  (dropTrailing_prefixOf p l).sublist.subset hc

/-- The last character kept by `dropTrailing` does not match. -/
theorem getLast?_dropTrailing_false {p : Char → Bool} {l : List Char}
    {c : Char} (h : (dropTrailing p l).getLast? = some c) : p c = false := by
  unfold dropTrailing at h
  rw [List.getLast?_reverse] at h
  exact head?_dropWhile_false h

/-- A non-empty prefix shares the head. -/
theorem head?_of_prefix {l1 l2 : List Char} (h : l1 <+: l2) (hne : l1 ≠ []) :
    l2.head? = l1.head? := by
  obtain ⟨t, rfl⟩ := h
  cases l1 with
  | nil => exact absurd rfl hne
  | cons a t1 => rfl

/-- Everything `subNonWordL` emits is a word character or whitespace. -/
theorem mem_subNonWordL {x : List Char} {c : Char} (hc : c ∈ subNonWordL x) :
    (pyIsWordChar c || pyIsSpace c) = true := by
  rcases List.mem_map.mp hc with ⟨d, _, rfl⟩
  by_cases hd : (pyIsWordChar d || pyIsSpace d) = true
  · rw [if_pos hd]
    exact hd
  · rw [if_neg hd]
    decide

/-- The character lists `pyStripUnderscoresL` produces: still drawn from the
input, with no leading or trailing underscore. -/
theorem pyStripUnderscoresL_subset {l : List Char} {c : Char}
    (hc : c ∈ pyStripUnderscoresL l) : c ∈ l :=
  List.dropWhile_subset _ (dropTrailing_subset hc)

theorem pyStripUnderscoresL_head {l : List Char} {c : Char}
    (h : (pyStripUnderscoresL l).head? = some c) : ¬ c = '_' := by
  unfold pyStripUnderscoresL at h
  have hne : dropTrailing (fun c => c = '_')
      (l.dropWhile fun c => c = '_') ≠ [] := by
    intro he
    rw [he] at h
    cases h
  have heq := head?_of_prefix
    (dropTrailing_prefixOf (fun c => c = '_') (l.dropWhile fun c => c = '_')) hne
  rw [h] at heq
  have := head?_dropWhile_false heq
  simpa using this

theorem pyStripUnderscoresL_last {l : List Char} {c : Char}
    (h : (pyStripUnderscoresL l).getLast? = some c) : ¬ c = '_' := by
  unfold pyStripUnderscoresL at h
  have := getLast?_dropTrailing_false h
  simpa using this

theorem pyStripUnderscoresL_infixOf (l : List Char) :
    pyStripUnderscoresL l <:+: l := by
  unfold pyStripUnderscoresL
  exact ((dropTrailing_prefixOf _ _).isInfix).trans
    ((List.dropWhile_suffix _).isInfix)

/-- The last step of `sanitizeL`: empty fallback and leading-digit guard. -/
def sanitizeFinal (l : List Char) : List Char :=
  match l with
  | [] => "unnamed".data
  | c :: _ => if c.isDigit then 'c' :: 'o' :: 'l' :: '_' :: l else l

/-- `sanitizeL` written as a plain composition. -/
theorem sanitizeL_eq (raw : List Char) :
    sanitizeL raw =
      sanitizeFinal ((pyStripUnderscoresL (subUnderscoreRunsL (subSpaceRunsL
        (subNonWordL (subSpecialsL (pyStripL raw)))))).map pyToLower) := rfl

/-- A normalized identifier passes through every `sanitize_column_name`
stage unchanged. -/
theorem sanitizeL_fixes {l : List Char} (h : goodIdent l) : sanitizeL l = l := by
  obtain ⟨hne, hall, hhead, hlast, hdd, hdig⟩ := h
  have hnospace : ∀ c ∈ l, pyIsSpace c = false :=
    fun c hc => goodCharB_not_space (hall c hc)
  have h1 : pyStripL l = l := by
    unfold pyStripL
    rw [dropWhile_eq_self_all l hnospace]
    unfold dropTrailing
    rw [dropWhile_eq_self_all _
      (fun c hc => hnospace c (List.mem_reverse.mp hc))]
    exact List.reverse_reverse l
  have h2 : subSpecialsL l = l :=
    map_congr_id l (fun c hc => if_neg (goodCharB_not_special (hall c hc)))
  have h3 : subNonWordL l = l :=
    map_congr_id l (fun c hc =>
      if_pos (by rw [goodCharB_word (hall c hc)]; rfl))
  have h4 : subSpaceRunsL l = l := collapseRuns_no_p l hnospace false
  have h5 : subUnderscoreRunsL l = l := collapseU_id l false hdd (by simp)
  have h6 : pyStripUnderscoresL l = l := by
    unfold pyStripUnderscoresL
    rw [dropWhile_eq_self_head l ?hd]
    case hd =>
      intro c hc
      have : ¬ c = '_' := fun he => hhead (by rw [hc, he])
      simpa using this
    unfold dropTrailing
    rw [dropWhile_eq_self_head _ ?tl]
    case tl =>
      intro c hc
      rw [List.head?_reverse] at hc
      have : ¬ c = '_' := fun he => hlast (by rw [hc, he])
      simpa using this
    exact List.reverse_reverse l
  have h7 : l.map pyToLower = l :=
    map_congr_id l (fun c hc => goodCharB_toLower (hall c hc))
  rw [sanitizeL_eq, h1, h2, h3, h4, h5, h6, h7]
  cases hl : l with
  | nil => exact absurd hl hne
  | cons c rest =>
    have hd : c.isDigit = false := hdig c (by rw [hl]; rfl)
    rw [sanitizeFinal]
    simp [hd]

/-- The final step of `sanitize_column_name` turns a clean letter/digit/
underscore list into a normalized identifier. -/
theorem goodIdent_final {l7 : List Char}
    (hgood : ∀ c ∈ l7, goodCharB c = true) (hdd : noDD l7)
    (hhead : l7.head? ≠ some '_') (hlast : l7.getLast? ≠ some '_') :
    goodIdent (sanitizeFinal l7) := by
  cases l7 with
  | nil => decide
  | cons c rest =>
    rw [sanitizeFinal]
    by_cases hd : c.isDigit = true
    · rw [if_pos hd]
      have hcu : ¬ c = '_' := by
        intro he
        rw [he] at hd
        exact absurd hd (by decide)
      refine ⟨by simp, ?_, by simp, ?_, ?_, ?_⟩
      · intro x hx
        rcases List.mem_cons.mp hx with rfl | hx
        · decide
        rcases List.mem_cons.mp hx with rfl | hx
        · decide
        rcases List.mem_cons.mp hx with rfl | hx
        · decide
        rcases List.mem_cons.mp hx with rfl | hx
        · decide
        exact hgood x hx
      · rw [List.getLast?_cons_cons, List.getLast?_cons_cons,
          List.getLast?_cons_cons, List.getLast?_cons_cons]
        exact hlast
      · rw [noDD_cons_iff]
        refine ⟨by rintro ⟨h1, _⟩; exact absurd h1 (by decide), ?_⟩
        rw [noDD_cons_iff]
        refine ⟨by rintro ⟨h1, _⟩; exact absurd h1 (by decide), ?_⟩
        rw [noDD_cons_iff]
        refine ⟨by rintro ⟨h1, _⟩; exact absurd h1 (by decide), ?_⟩
        rw [noDD_cons_iff]
        refine ⟨?_, hdd⟩
        rintro ⟨_, h2⟩
        simp only [List.head?_cons, Option.some.injEq] at h2
        exact hcu h2
      · intro x hx
        injection hx with h
        rw [← h]
        decide
    · rw [if_neg hd]
      refine ⟨by simp, hgood, hhead, hlast, hdd, ?_⟩
      intro x hx
      injection hx with h
      rw [← h]
      exact Bool.eq_false_iff.mpr hd

/-- Every output of `sanitize_column_name`'s core is a normalized
identifier. -/
theorem sanitizeL_good (raw : List Char) : goodIdent (sanitizeL raw) := by
  rw [sanitizeL_eq]
  apply goodIdent_final
  · intro c hc
    rcases List.mem_map.mp hc with ⟨d, hd, rfl⟩
    refine word_toLower_good ?_
    have hd5 := pyStripUnderscoresL_subset hd
    unfold subUnderscoreRunsL at hd5
    rcases mem_collapseRuns _ false _ hd5 with rfl | ⟨hm4, _⟩
    · decide
    · unfold subSpaceRunsL at hm4
      rcases mem_collapseRuns _ false _ hm4 with rfl | ⟨hm3, hs3⟩
      · decide
      · have hw := mem_subNonWordL hm3
        rw [hs3, Bool.or_false] at hw
        exact hw
  · exact noDD_map (fun c => toLower_underscore_iff)
      (noDD_infixOf (pyStripUnderscoresL_infixOf _) (noDD_collapseU _ false))
  · intro hh
    rw [List.head?_map] at hh
    cases hx : (pyStripUnderscoresL (subUnderscoreRunsL (subSpaceRunsL
        (subNonWordL (subSpecialsL (pyStripL raw)))))).head? with
    | none => rw [hx] at hh; cases hh
    | some d =>
      rw [hx] at hh
      have hd2 : pyToLower d = '_' := by
        simpa using hh
      exact pyStripUnderscoresL_head hx (toLower_underscore_iff.mp hd2)
  · intro hh
    rw [List.getLast?_map] at hh
    cases hx : (pyStripUnderscoresL (subUnderscoreRunsL (subSpaceRunsL
        (subNonWordL (subSpecialsL (pyStripL raw)))))).getLast? with
    | none => rw [hx] at hh; cases hh
    | some d =>
      rw [hx] at hh
      have hd2 : pyToLower d = '_' := by
        simpa using hh
      exact pyStripUnderscoresL_last hx (toLower_underscore_iff.mp hd2)

/-- `sanitize_column_name` on an explicit non-empty character list. -/
theorem sanitize_mk (l : List Char) (hne : l ≠ []) :
    sanitize_column_name (String.mk l) = String.mk (sanitizeL l) := by
  unfold sanitize_column_name
  cases l with
  | nil => exact absurd rfl hne
  | cons c rest => rfl

/-- C9: the Column Normalizer is idempotent —
`sanitize_column_name (sanitize_column_name s) = sanitize_column_name s`
for every string, and an already-normalized identifier (non-empty lowercase
word characters, no leading digit, no leading/trailing/doubled underscore)
is returned unchanged. -/
theorem sanitize_column_name_idempotent (s : String) :
    sanitize_column_name (sanitize_column_name s) = sanitize_column_name s ∧
    (goodIdent s.data → sanitize_column_name s = s) := by
  have hmk : String.mk s.data = s := String.ext rfl
  constructor
  · by_cases hs : s.data = []
    · have h1 : sanitize_column_name s = "unnamed" := by
        unfold sanitize_column_name
        rw [hs]
      rw [h1]
      decide
    · have hgood := sanitizeL_good s.data
      have h1 : sanitize_column_name s = String.mk (sanitizeL s.data) := by
        rw [← hmk]
        exact sanitize_mk s.data hs
      rw [h1, sanitize_mk _ hgood.1]
      exact congrArg String.mk (sanitizeL_fixes hgood)
  · intro hg
    rw [← hmk, sanitize_mk s.data hg.1]
    exact congrArg String.mk (sanitizeL_fixes hg)

/-- C9 witness: a typical already-normalized column name is a fixed point. -/
theorem sanitize_column_name_idempotent_witness :
    sanitize_column_name "shipper_name" = "shipper_name" :=
  (sanitize_column_name_idempotent "shipper_name").2 (by decide)

/-- The body of `process_file` after the emptiness guard and header
mapping, as a standalone function of the already-computed deduplicated
header list (`process_file_eq` connects it to `process_file` by `rfl`). -/
def pfCore (final_cols newCols : List String)
    (rows : List (List (Option String))) (sf sfo ts : String) : PFrame :=
  let step1 := addMissingCols final_cols newCols rows
  let available := final_cols.filter (fun c => c ∈ step1.1)
  let rows2 := step1.2.map (fun r => available.map (colValue step1.1 r))
  let rows3 :=
    match final_cols with
    | [] => rows2
    | first :: _ =>
      if rows2.isEmpty then rows2
      else if first ∈ available then
        rows2.filter (fun r =>
          String.mk (((cellStr (colValue available r first)).data.dropWhile
              pyIsSpace |> dropTrailing pyIsSpace).map pyToLower)
            ≠ normalize_for_matching first)
      else rows2
  let step2 := setColumn "source_file" sf available rows3
  let step3 := setColumn "source_folder" sfo step2.1 step2.2
  let step4 := setColumn "processed_timestamp" ts step3.1 step3.2
  ⟨step4.1, step4.2⟩

theorem process_file_eq (rawCols : List String)
    (mapping : List (String × String)) (final_cols : List String)
    (rows : List (List (Option String))) (sf sfo ts : String)
    (hrows : rows ≠ []) (hcols : rawCols ≠ []) :
    process_file rawCols mapping final_cols rows sf sfo ts =
      some (pfCore final_cols
        (dedupe_columns (rawCols.map (fun col =>
          sanitize_column_name ((dlookup mapping (pyStrip col)).getD
            (pyStrip col)))))
        rows sf sfo ts) := by
  unfold process_file
  rw [if_neg]
  · rfl
  · simp [List.isEmpty_iff, hrows, hcols]

/-- `indexOf` of an element missing from the first part of an append lands
past that part. -/
theorem indexOf_ge_of_not_mem {c : String} :
    ∀ {l1 l2 : List String}, c ∉ l1 → l1.length ≤ (l1 ++ l2).indexOf c := by
  intro l1
  induction l1 with
  | nil => intro l2 _; exact Nat.zero_le _
  | cons a l1 ih =>
    intro l2 h
    have hac : (a == c) = false :=
      beq_eq_false_iff_ne.mpr (fun e => h (e ▸ List.mem_cons_self _ _))
    rw [List.cons_append, List.indexOf_cons]
    rw [hac]
    simpa using ih (fun hm => h (List.mem_cons_of_mem _ hm))

/-- A column added as missing reads back as `none` on every padded row. -/
theorem colValue_missing {cols added : List String}
    {r : List (Option String)} {k : Nat} {c : String}
    (hnot : c ∉ cols) (hlen : r.length = cols.length) :
    colValue (cols ++ added) (r ++ List.replicate k none) c = none := by
  unfold colValue
  have hge : r.length ≤ (cols ++ added).indexOf c := by
    rw [hlen]; exact indexOf_ge_of_not_mem hnot
  rw [List.get?_append_right hge]
  rcases hx : (List.replicate k (none : Option String)).get?
      ((cols ++ added).indexOf c - r.length) with _ | v
  · rfl
  · have hv : v = none := List.eq_of_mem_replicate (List.get?_mem hx)
    rw [hv]
    rfl

/-- `zip` at an index where both lists are defined. -/
theorem get?_zip_eq_some {l1 : List String} {l2 : List (Option String)}
    {i : Nat} {a : String} {b : Option String}
    (h1 : l1.get? i = some a) (h2 : l2.get? i = some b) :
    (l1.zip l2).get? i = some (a, b) := by
  rw [List.get?_eq_getElem?] at h1 h2 ⊢
  show (List.zipWith Prod.mk l1 l2)[i]? = some (a, b)
  rw [List.getElem?_zipWith, h1, h2]

/-- One step of the `addMissingCols` fold. -/
theorem addMissingCols_cons (c : String) (fc cols : List String)
    (rows : List (List (Option String))) :
    addMissingCols (c :: fc) cols rows =
      addMissingCols fc
        (if c ∈ cols then cols else cols ++ [c])
        (if c ∈ cols then rows else rows.map (fun r => r ++ [none])) := by
  unfold addMissingCols
  rw [List.foldl_cons]
  by_cases hc : c ∈ cols
  · rw [if_pos hc, if_pos hc, if_pos hc]
  · rw [if_neg hc, if_neg hc, if_neg hc]

/-- The `addMissingCols` fold appends the missing labels and pads every row
with that many nulls. -/
theorem addMissing_invariant :
    ∀ (fc cols : List String) (rows : List (List (Option String))),
      ∃ added : List String,
        (addMissingCols fc cols rows).1 = cols ++ added ∧
        (∀ c ∈ fc, c ∈ (addMissingCols fc cols rows).1) ∧
        (addMissingCols fc cols rows).2
          = rows.map (fun r => r ++ List.replicate added.length none) := by
  intro fc
  induction fc with
  | nil =>
    intro cols rows
    refine ⟨[], by simp [addMissingCols], by simp, ?_⟩
    show rows = rows.map (fun r => r ++ List.replicate 0 none)
    simp
  | cons c fc ih =>
    intro cols rows
    rw [addMissingCols_cons]
    by_cases hc : c ∈ cols
    · rw [if_pos hc, if_pos hc]
      obtain ⟨added, h1, h2, h3⟩ := ih cols rows
      refine ⟨added, h1, ?_, h3⟩
      intro d hd
      rcases List.mem_cons.mp hd with rfl | hd
      · rw [h1]; exact List.mem_append_left _ hc
      · exact h2 d hd
    · rw [if_neg hc, if_neg hc]
      obtain ⟨added, h1, h2, h3⟩ :=
        ih (cols ++ [c]) (rows.map (fun r => r ++ [none]))
      refine ⟨c :: added, ?_, ?_, ?_⟩
      · rw [h1, List.append_assoc]
        rfl
      · intro d hd
        rcases List.mem_cons.mp hd with rfl | hd
        · rw [h1]
          exact List.mem_append_left _ (List.mem_append_right _ (by simp))
        · exact h2 d hd
      · rw [h3, List.map_map]
        refine List.map_congr_left (fun r _ => ?_)
        show (r ++ [none]) ++ List.replicate added.length none
          = r ++ List.replicate (added.length + 1) none
        rw [List.append_assoc]
        rfl

/-- `setColumn` keeps labels or appends its own name. -/
theorem setColumn_cols_mem_cases {name val : String} {cols : List String}
    {rows : List (List (Option String))} {c : String}
    (hc : c ∈ (setColumn name val cols rows).1) : c ∈ cols ∨ c = name := by
  unfold setColumn at hc
  by_cases hm : name ∈ cols
  · rw [if_pos hm] at hc
    exact Or.inl hc
  · rw [if_neg hm] at hc
    rcases List.mem_append.mp hc with h | h
    · exact Or.inl h
    · simp only [List.mem_singleton] at h
      exact Or.inr h

/-- Labels survive `setColumn`. -/
theorem setColumn_cols_mono {name val : String} {cols : List String}
    {rows : List (List (Option String))} {c : String} (hc : c ∈ cols) :
    c ∈ (setColumn name val cols rows).1 := by
  unfold setColumn
  by_cases hm : name ∈ cols
  · rw [if_pos hm]; exact hc
  · rw [if_neg hm]; exact List.mem_append_left _ hc

/-- `setColumn` for a different label: the label at position `i`, its null
value, and the row alignment are all preserved. -/
theorem setColumn_preserve {name val : String} {cols : List String}
    {rows : List (List (Option String))} {i : Nat} {c : String}
    (hc : cols.get? i = some c) (hne : c ≠ name)
    (hrows : ∀ r ∈ rows, r.get? i = some none ∧ r.length = cols.length) :
    (setColumn name val cols rows).1.get? i = some c ∧
    ∀ r ∈ (setColumn name val cols rows).2,
      r.get? i = some none ∧ r.length = (setColumn name val cols rows).1.length := by
  have hi : i < cols.length := by
    by_contra hgt
    rw [List.get?_eq_none.mpr (le_of_not_lt hgt)] at hc
    cases hc
  unfold setColumn
  by_cases hm : name ∈ cols
  · rw [if_pos hm]
    refine ⟨hc, ?_⟩
    intro r hr
    rcases List.mem_map.mp hr with ⟨r0, hr0, rfl⟩
    obtain ⟨hval, hlen⟩ := hrows r0 hr0
    constructor
    · rw [List.get?_map, get?_zip_eq_some hc hval]
      show some (if c = name then some val else none) = some none
      rw [if_neg hne]
    · rw [List.length_map, List.length_zip, hlen, Nat.min_self]
  · rw [if_neg hm]
    constructor
    · rw [List.get?_append hi]
      exact hc
    · intro r hr
      rcases List.mem_map.mp hr with ⟨r0, hr0, rfl⟩
      obtain ⟨hval, hlen⟩ := hrows r0 hr0
      have hir : i < r0.length := by rw [hlen]; exact hi
      refine ⟨?_, ?_⟩
      · rw [List.get?_append hir]
        exact hval
      · simp [hlen]

/-- Membership through the leaked-header-row filter step. -/
theorem mem_of_mem_ite_filter {α : Type} {l : List α} {p : α → Bool} {r : α}
    (c1 c2 : Prop) [Decidable c1] [Decidable c2]
    (h : r ∈ (if c1 then l else if c2 then l.filter p else l)) : r ∈ l := by
  split_ifs at h
  · exact h
  · exact List.mem_of_mem_filter h
  · exact h

/-- Chaining the three provenance-column writes: a different label keeps its
position and its null values. -/
theorem setColumn_chain {cols : List String}
    {rows : List (List (Option String))} {i : Nat} {c : String}
    (hc : cols.get? i = some c)
    (h1 : c ≠ "source_file") (h2 : c ≠ "source_folder")
    (h3 : c ≠ "processed_timestamp")
    (hrows : ∀ r ∈ rows, r.get? i = some none ∧ r.length = cols.length)
    (sf sfo ts : String) :
    ∀ r ∈ (setColumn "processed_timestamp" ts
        (setColumn "source_folder" sfo (setColumn "source_file" sf cols rows).1
          (setColumn "source_file" sf cols rows).2).1
        (setColumn "source_folder" sfo (setColumn "source_file" sf cols rows).1
          (setColumn "source_file" sf cols rows).2).2).2,
      r.get? i = some none := by
  obtain ⟨ha, hb⟩ := setColumn_preserve hc h1 hrows
  obtain ⟨hd, he⟩ := setColumn_preserve ha h2 hb
  obtain ⟨_, hg⟩ := setColumn_preserve hd h3 he
  exact fun r hr => (hg r hr).1

/-- C6 core: the extracted frame carries exactly the final columns (plus the
three provenance columns when absent from them), and every target column
missing from the file's mapped header list is null on every row. -/
theorem pfCore_spec (final_cols newCols : List String)
    (rows : List (List (Option String))) (sf sfo ts : String)
    (halign : ∀ r ∈ rows, r.length = newCols.length) :
    (∀ c ∈ final_cols, c ∈ (pfCore final_cols newCols rows sf sfo ts).cols) ∧
    (∀ c ∈ (pfCore final_cols newCols rows sf sfo ts).cols,
      c ∈ final_cols ∨ c = "source_file" ∨ c = "source_folder" ∨
        c = "processed_timestamp") ∧
    (∀ i c, final_cols.get? i = some c → c ∉ newCols →
      c ≠ "source_file" → c ≠ "source_folder" → c ≠ "processed_timestamp" →
      ∀ r ∈ (pfCore final_cols newCols rows sf sfo ts).rows,
        r.get? i = some none) := by
  obtain ⟨added, hc2, hmemfc, hpad⟩ :=
    addMissing_invariant final_cols newCols rows
  have havail : final_cols.filter
      (fun c => decide (c ∈ (addMissingCols final_cols newCols rows).1))
      = final_cols :=
    List.filter_eq_self.mpr (fun a ha => decide_eq_true (hmemfc a ha))
  simp only [pfCore]
  simp only [havail]
  simp only [hc2, hpad]
  refine ⟨?_, ?_, ?_⟩
  · intro c hcf
    exact setColumn_cols_mono (setColumn_cols_mono (setColumn_cols_mono hcf))
  · intro c hc
    rcases setColumn_cols_mem_cases hc with h | h
    · rcases setColumn_cols_mem_cases h with h2 | h2
      · rcases setColumn_cols_mem_cases h2 with h3 | h3
        · exact Or.inl h3
        · exact Or.inr (Or.inl h3)
      · exact Or.inr (Or.inr (Or.inl h2))
    · exact Or.inr (Or.inr (Or.inr h))
  · intro i c hget hnot hn1 hn2 hn3
    have hnil : final_cols ≠ [] := by
      intro h
      rw [h] at hget
      cases hget
    obtain ⟨first, fcr, rfl⟩ := List.exists_cons_of_ne_nil hnil
    intro r hr
    refine setColumn_chain hget hn1 hn2 hn3 ?_ sf sfo ts r hr
    intro r2 hr2
    have hr3 : r2 ∈ (rows.map
        (fun r => r ++ List.replicate added.length none)).map
        (fun r => (first :: fcr).map
          (colValue (newCols ++ added) r)) :=
      mem_of_mem_ite_filter _ _ hr2
    rcases List.mem_map.mp hr3 with ⟨r1, hr1, rfl⟩
    rcases List.mem_map.mp hr1 with ⟨r0, hr0, rfl⟩
    constructor
    · rw [List.get?_map, hget]
      show some (colValue (newCols ++ added)
        (r0 ++ List.replicate added.length none) c) = some none
      rw [colValue_missing hnot (halign r0 hr0)]
    · simp

/-- C6: for every non-empty file, `process_file` returns a frame whose
columns contain every final column and nothing outside the final column set
other than the three provenance columns, and every final target column that
is missing from the file's mapped-sanitized-deduplicated header list holds
a null in every row of that file. -/
theorem process_file_row_alignment (rawCols : List String)
    (mapping : List (String × String)) (final_cols : List String)
    (rows : List (List (Option String))) (sf sfo ts : String)
    (hrows : rows ≠ []) (hcols : rawCols ≠ [])
    (halign : ∀ r ∈ rows, r.length = rawCols.length) :
    ∃ t : PFrame,
      process_file rawCols mapping final_cols rows sf sfo ts = some t ∧
      (∀ c ∈ final_cols, c ∈ t.cols) ∧
      (∀ c ∈ t.cols, c ∈ final_cols ∨ c = "source_file" ∨
        c = "source_folder" ∨ c = "processed_timestamp") ∧
      (∀ i c, final_cols.get? i = some c →
        c ∉ dedupe_columns (rawCols.map (fun col =>
          sanitize_column_name ((dlookup mapping (pyStrip col)).getD
            (pyStrip col)))) →
        c ≠ "source_file" → c ≠ "source_folder" → c ≠ "processed_timestamp" →
        ∀ r ∈ t.rows, r.get? i = some none) := by
  have hlen : ∀ r ∈ rows, r.length = (dedupe_columns (rawCols.map (fun col =>
      sanitize_column_name ((dlookup mapping (pyStrip col)).getD
        (pyStrip col))))).length := by
    intro r hr
    rw [dedupe_columns_eq_spec, dedupeSpec_length, List.length_map]
    exact halign r hr
  obtain ⟨h1, h2, h3⟩ := pfCore_spec final_cols _ rows sf sfo ts hlen
  exact ⟨_, process_file_eq rawCols mapping final_cols rows sf sfo ts
    hrows hcols, h1, h2, h3⟩

/-- C6 witness: a one-row file with headers Date and QTY against a final
schema that also wants `hs_code` — the extracted frame exists and `hs_code`
(position 2) is null on every row. -/
theorem process_file_row_alignment_witness :
    ∃ t : PFrame,
      process_file ["Date", "QTY"] []
        ["date", "qty", "hs_code", "source_file", "source_folder",
          "processed_timestamp"]
        [[some "2024-01-01", some "5"]] "f.xlsx" "folder" "ts" = some t ∧
      ∀ r ∈ t.rows, r.get? 2 = some none := by
  obtain ⟨t, heq, _, _, h3⟩ :=
    process_file_row_alignment ["Date", "QTY"] []
      ["date", "qty", "hs_code", "source_file", "source_folder",
        "processed_timestamp"]
      [[some "2024-01-01", some "5"]] "f.xlsx" "folder" "ts"
      (by decide) (by decide) (by decide)
  exact ⟨t, heq, h3 2 "hs_code" (by decide) (by decide) (by decide)
    (by decide) (by decide)⟩
